import Mathlib

set_option synthInstance.maxSize 2000

/-!
Shallow embedding of the trwbl library (src/trwbl.py): field schema,
inverted-index postings, document store, query parser and the
result-set scorer, together with theorems checking the specification
claims against this embedding.

Modelling conventions:
* Python floats are modelled as exact rationals (`ℚ`).
* Python dicts are modelled as association lists kept in insertion
  order; the claims only depend on key membership, lookup and the
  per-key lists (Python 2 iterates small contiguous int keys in
  numeric order, which the insertion order of this model reproduces).
* Python exceptions are modelled with `Except PyErr`.
* `Document` objects are mutated through shared references in the
  source, so they live in an explicit heap (`List Doc`); a reference
  is a heap index.
* Text is `List Char`; the regex classes `\w`, `\S`, `.` are modelled
  over ASCII, matching the library's documented use.
-/

namespace Trwbl

abbrev Chars := List Char

/-- The Python exceptions that the code under `src/trwbl.py` can raise
on the paths the claims exercise. -/
inductive PyErr where
  | fieldException (msg : String)
  | indexException (msg : String)
  | nameError (name : String)
  | attributeError (attr : String)
  | typeError (msg : String)
  | keyError
  | zeroDivisionError
deriving DecidableEq

def isErr {ε α : Type} : Except ε α → Bool
  | .error _ => true
  | .ok _ => false

instance {ε α : Type} [DecidableEq ε] [DecidableEq α] : DecidableEq (Except ε α) := fun
  | .error e, .error e' =>
    if h : e = e' then .isTrue (h ▸ rfl) else .isFalse (fun hc => h (Except.error.inj hc))
  | .error _, .ok _ => .isFalse (fun hc => Except.noConfusion hc)
  | .ok _, .error _ => .isFalse (fun hc => Except.noConfusion hc)
  | .ok a, .ok b =>
    if h : a = b then .isTrue (h ▸ rfl) else .isFalse (fun hc => h (Except.ok.inj hc))

/-! ### Association-list helpers (model of Python dicts) -/

def alookup {α β : Type} [DecidableEq α] : List (α × β) → α → Option β
  | [], _ => none
  | (k, v) :: rest, a => if k = a then some v else alookup rest a

/-- `d[k] = v` on a Python dict: replace the first binding of `k`, or
append a new binding at the end. -/
def aupdate {α β : Type} [DecidableEq α] : List (α × β) → α → β → List (α × β)
  | [], k, v => [(k, v)]
  | (k', v') :: rest, k, v =>
    if k' = k then (k', v) :: rest else (k', v') :: aupdate rest k v

/-- A rational literal in lowest terms, written with the structure
constructor so that concrete states evaluate inside the kernel (the
division-based numerals go through `Rat.div`, which does not reduce);
`qlit_eq_div` below ties it to the usual notation. -/
def qlit (n : Int) (d : Nat) (h1 : d ≠ 0) (h2 : n.natAbs.Coprime d) : ℚ :=
  ⟨n, d, h1, h2⟩

/-! ### Tokenizers (`Tokenizer`, `TokenizerNot`, trwbl.py lines 78-92) -/

/-- Python 2 `\s` over ASCII. -/
def isPyWS (c : Char) : Bool :=
  c = ' ' || c = '\t' || c = '\n' || c = '\r' || c = '\x0b' || c = '\x0c'

/-- A character matched by the default token pattern `[\w']+`
(ASCII `\w` plus the apostrophe, whose code point is 39). -/
def isWordChar (c : Char) : Bool :=
  c.isAlphanum || c = '_' || c.toNat = 39

/-- Maximal runs of characters satisfying `p`, in order: the semantics
of `re.findall` for a pattern of the form `[...]+`. -/
def runsOf (p : Char → Bool) (s : Chars) : List Chars :=
  let step := fun c (st : Option Chars × List Chars) =>
    if p c then (some (c :: st.1.getD []), st.2)
    else (none, match st.1 with | some r => r :: st.2 | none => st.2)
  let fin := s.foldr step (none, [])
  match fin.1 with
  | some r => r :: fin.2
  | none => fin.2

/-- `Tokenizer(lower, r"[\w']+")` (the only pattern the repository
uses) and `TokenizerNot`. -/
inductive Tkzr where
  | words (lower : Bool)
  | notTok
deriving DecidableEq

def tkTokenize : Tkzr → Chars → List Chars
  | .words lower, s =>
    (runsOf isWordChar s).map (fun r => if lower then r.map Char.toLower else r)
  | .notTok, s => [s]

/-! ### Postings (`Field.tokens`, trwbl.py lines 221-240)

`field -- token -- doc_id -- field_id -- token_id` nesting, exactly as
in the source's nested dicts of lists. -/

abbrev FieldLocs := List (Nat × List Nat)
abbrev TokLoc := List (Nat × FieldLocs)
abbrev Postings := List (Chars × TokLoc)

/-- The nested insert of `Field.add` (lines 229-240). -/
def tokLocAdd (d : TokLoc) (docId fieldId tokenId : Nat) : TokLoc :=
  match alookup d docId with
  | none => aupdate d docId [(fieldId, [tokenId])]
  | some fl =>
    match alookup fl fieldId with
    | none => aupdate d docId (aupdate fl fieldId [tokenId])
    | some ps => aupdate d docId (aupdate fl fieldId (ps ++ [tokenId]))

def postingsAdd (ts : Postings) (tok : Chars) (docId fieldId tokenId : Nat) :
    Postings :=
  match alookup ts tok with
  | none => aupdate ts tok [(docId, [(fieldId, [tokenId])])]
  | some d => aupdate ts tok (tokLocAdd d docId fieldId tokenId)

def okOr {ε α : Type} (e : Except ε α) (dflt : α) : α :=
  match e with
  | .ok a => a
  | .error _ => dflt

/-- `hasPostingB P tok did`: token `tok` has a posting for document
`did` in postings `P`. -/
def hasPostingB (P : Postings) (tok : Chars) (did : Nat) : Bool :=
  match alookup P tok with
  | some dl => (alookup dl did).isSome
  | none => false

/-! ### Field schema (`Field`, trwbl.py lines 177-240) -/

structure Field where
  name : String
  index : Bool
  store : Bool
  copy_to : Option String
  weight : ℚ
  tokenizer : Tkzr
  tokens : Postings
deriving DecidableEq

/-- A document field value: a single string, or an ordered sequence of
strings (Python 2 strings have no `__iter__`, lists and tuples do). -/
inductive FVal where
  | str (s : Chars)
  | strs (l : List Chars)
deriving DecidableEq

def fvalOccs : FVal → List Chars
  | .str s => [s]
  | .strs l => l

/-- `for token_id, value in enumerate(token_values)` of `Field.add`. -/
def addTokensFrom (docId fieldId : Nat) (tokenId : Nat) (ts : Postings) :
    List Chars → Postings
  | [] => ts
  | tok :: rest =>
    addTokensFrom docId fieldId (tokenId + 1) (postingsAdd ts tok docId fieldId tokenId) rest

/-- `for field_id, field_value in enumerate(field_values)` of `Field.add`. -/
def addOccsFrom (tz : Tkzr) (docId : Nat) (fieldId : Nat) (ts : Postings) :
    List Chars → Postings
  | [] => ts
  | v :: rest =>
    addOccsFrom tz docId (fieldId + 1) (addTokensFrom docId fieldId 0 ts (tkTokenize tz v)) rest

/-- `Field.add(self, field_value, document_id)` (lines 221-240). -/
def Field.add (f : Field) (v : FVal) (docId : Nat) : Field :=
  { f with tokens := addOccsFrom f.tokenizer docId 0 f.tokens (fvalOccs v) }

/-- The arguments of a `Field(...)` call: `tokenizer = none` models
passing `tokenizer=None` (which selects `TokenizerNot`). -/
structure FieldSpec where
  name : String
  index : Bool
  store : Bool
  copy_to : Option String
  weight : ℚ
  tokenizer : Option Tkzr
deriving DecidableEq

/-- `Field.__init__` (lines 194-209): raises `FieldException` unless
`0 <= weight <= 1`. -/
def mkField (s : FieldSpec) : Except PyErr Field :=
  if 0 ≤ s.weight ∧ s.weight ≤ 1 then
    .ok { name := s.name, index := s.index, store := s.store, copy_to := s.copy_to,
          weight := s.weight, tokenizer := s.tokenizer.getD .notTok, tokens := [] }
  else .error (.fieldException "Invalid weight")

/-! ### Index (`Index`, `IndexFieldDict`, trwbl.py lines 353-444) -/

structure Index where
  documents : List (Nat × Nat)
  doc_counter : Nat
  fields : List (String × Field)
  weighted_fields : List (ℚ × String)
deriving DecidableEq

def emptyIndex : Index := ⟨[], 0, [], []⟩

/-- `IndexFieldDict.__getitem__` (lines 354-358): `IndexException` for
an undefined field. -/
def lookupField (idx : Index) (name : String) : Except PyErr Field :=
  match alookup idx.fields name with
  | some f => .ok f
  | none => .error (.indexException "Field not defined.")

/-- Python tuple comparison on `(weight, name)` pairs; string order is
byte order, which Lean's `String` order matches on ASCII. -/
def wfLE (a b : ℚ × String) : Prop :=
  a.1 < b.1 ∨ (a.1 = b.1 ∧ ¬ b.2 < a.2)

instance : DecidableRel wfLE := fun a b => by
  unfold wfLE; exact inferInstance

/-- Lines 378-381 of `Index.__init__`: append, sort ascending,
reverse, every time a weighted field is registered (`field.weight`
truthiness excludes weight 0). -/
def addWeighted (idx : Index) (f : Field) : Index :=
  if f.index = true ∧ f.weight ≠ 0 then
    { idx with weighted_fields :=
        (List.insertionSort wfLE (idx.weighted_fields ++ [(f.weight, f.name)])).reverse }
  else idx

/-- `IndexFieldDict.__setitem__` (lines 360-364) followed by the
weighted-field bookkeeping. -/
def registerField (idx : Index) (f : Field) : Except PyErr Index :=
  if (alookup idx.fields f.name).isSome then
    .error (.indexException "Field was defined twice.")
  else
    .ok (addWeighted { idx with fields := idx.fields ++ [(f.name, f)] } f)

/-- The `Field(...)` constructor calls of an `Index(fields=(...))`
call, evaluated left to right before `Index.__init__` runs. -/
def mkFields : List FieldSpec → Except PyErr (List Field)
  | [] => .ok []
  | s :: rest =>
    match mkField s with
    | .error e => .error e
    | .ok f =>
      match mkFields rest with
      | .error e => .error e
      | .ok fs => .ok (f :: fs)

def regFields (idx : Index) : List Field → Except PyErr Index
  | [] => .ok idx
  | f :: rest =>
    match registerField idx f with
    | .error e => .error e
    | .ok idx' => regFields idx' rest

/-- `Index(fields=specs)` (lines 368-381). -/
def mkIndex (specs : List FieldSpec) : Except PyErr Index :=
  match mkFields specs with
  | .error e => .error e
  | .ok fs => regFields emptyIndex fs

/-! ### Documents and the heap (`Document`, trwbl.py lines 446-471) -/

structure Doc where
  fields : List (String × Option FVal)
  id : Option Nat
  score : Option ℚ
deriving DecidableEq

instance : Inhabited Doc := ⟨⟨[], none, none⟩⟩

abbrev Heap := List Doc

def hGet (h : Heap) (r : Nat) : Doc := h.getD r default

def hSet (h : Heap) (r : Nat) (d : Doc) : Heap := h.set r d

/-- `document[field]` (`Document.__getitem__`); a key produced by the
document's own iteration is always bound. -/
def docGet (d : Doc) (name : String) : Option FVal :=
  (alookup d.fields name).getD none

/-- `document[field] = value` (`Document.__setitem__`). -/
def docSet (d : Doc) (name : String) (v : Option FVal) : Doc :=
  { d with fields := aupdate d.fields name v }

def updateField (idx : Index) (name : String) (f : Field) : Index :=
  { idx with fields := aupdate idx.fields name f }

/-- `if index_field.index: index_field.add(field_value, document.id)`
(lines 393-394 of the per-field loop body).  Tokenizing `None` (a
value already discarded) would raise in the default tokenizer; no
claim reaches that path with `None`. -/
def stepIndexPart (idx : Index) (fname : String) (ifld : Field)
    (fval : Option FVal) (newId : Nat) : Except PyErr Index :=
  if ifld.index then
    match fval with
    | some v => .ok (updateField idx fname (Field.add ifld v newId))
    | none => .error (.typeError "expected string or buffer")
  else .ok idx

/-- `if index_field.copy_to: ...` (lines 395-398); `''` is falsy. -/
def stepCopyPart (idx2 : Index) (ifld : Field) (fval : Option FVal)
    (newId : Nat) : Except PyErr Index :=
  match ifld.copy_to with
  | some t =>
    if t = "" then .ok idx2
    else
      match lookupField idx2 t with
      | .error e => .error e
      | .ok cfld =>
        if cfld.index then
          match fval with
          | some v => .ok (updateField idx2 t (Field.add cfld v newId))
          | none => .error (.typeError "expected string or buffer")
        else .ok idx2
  | none => .ok idx2

def stepField (idx : Index) (h : Heap) (r : Nat) (newId : Nat) (fname : String) :
    Except PyErr (Index × Heap) :=
  match lookupField idx fname with
  | .error e => .error e
  | .ok ifld =>
    match stepIndexPart idx fname ifld (docGet (hGet h r) fname) newId with
    | .error e => .error e
    | .ok idx2 =>
      match stepCopyPart idx2 ifld (docGet (hGet h r) fname) newId with
      | .error e => .error e
      | .ok idx3 =>
        -- if not self.fields[field].store: document[field] = None
        match lookupField idx3 fname with
        | .error e => .error e
        | .ok sfld =>
          if sfld.store then .ok (idx3, h)
          else .ok (idx3, hSet h r (docSet (hGet h r) fname none))

/-- `f'` is `f0` with possibly more postings: `Index.add` only ever
appends postings to a `Field` object, never changes its flags. -/
def fieldEvolves (f0 f' : Field) : Prop :=
  f'.name = f0.name ∧ f'.index = f0.index ∧ f'.store = f0.store ∧
  f'.copy_to = f0.copy_to ∧ f'.weight = f0.weight ∧
  f'.tokenizer = f0.tokenizer ∧
  ∀ tok docId, hasPostingB f0.tokens tok docId = true →
    hasPostingB f'.tokens tok docId = true

def idxEvolves (idx idx' : Index) : Prop :=
  ∀ g f0, alookup idx.fields g = some f0 →
    ∃ f', alookup idx'.fields g = some f' ∧ fieldEvolves f0 f'

def processFields (idx : Index) (h : Heap) (r : Nat) (newId : Nat) :
    List String → Except PyErr (Index × Heap)
  | [] => .ok (idx, h)
  | fname :: rest =>
    match stepField idx h r newId fname with
    | .error e => .error e
    | .ok (idx2, h2) => processFields idx2 h2 r newId rest

/-- `Index.add(document)` (lines 386-400): assigns the next id to the
caller's object in place, stores the same reference, then processes
each field name of the (shared, freshly id-stamped) object. -/
def indexAdd (idx : Index) (h : Heap) (r : Nat) : Except PyErr (Index × Heap) :=
  processFields
    { idx with doc_counter := idx.doc_counter + 1,
               documents := idx.documents ++ [(idx.doc_counter, r)] }
    (hSet h r { hGet h r with id := some idx.doc_counter })
    r idx.doc_counter
    ((hGet (hSet h r { hGet h r with id := some idx.doc_counter }) r).fields.map
      Prod.fst)

/-! ### Persistence (`Index.dump` / `Index.load`, lines 402-408)

`cPickle` round-trips the picklable object graph (compiled regexes are
registered with `copy_reg` by the `re` module); the snapshot blob is
modelled as the reachable state itself. -/

abbrev Blob := Index × Heap

def indexDump (idx : Index) (h : Heap) : Blob := (idx, h)

/-- `Index.load` raises on an established index (`if self.__dict__:`);
a fresh `Index()` has an empty `__dict__`, modelled as `none`. -/
def indexLoad (established : Option Blob) (b : Blob) : Except PyErr Blob :=
  match established with
  | some _ => .error (.indexException "Attempted load on established index.")
  | none => .ok b

/-! ### Query parser (`QUERY_RE`, `parse_query`, trwbl.py lines 53-67)

A direct model of `QUERY_RE.findall`: at each position the three
alternatives are tried in order (quoted phrase; optional sign, field
name, colon, field query; optional sign, bare word), with Python `re`
semantics: leftmost scan, ordered alternation, non-greedy `.+?`
(where `.` matches anything but a newline and `$` also matches just
before a trailing newline), greedy backtracking for `[\S]+:`. -/

/-- One 6-tuple of `QUERY_RE.findall`; groups of alternatives that did
not participate are empty. -/
structure QueryPart where
  phrase : Chars
  field_op : Chars
  field : Chars
  field_query : Chars
  word_op : Chars
  word : Chars
deriving DecidableEq

/-- Non-greedy `.+?(?:c|$)` after an opening delimiter: the shortest
nonempty newline-free prefix ending at `close` or at `$`.  Returns the
captured content, whether the closing delimiter was consumed, and the
remaining input. -/
def scanEnclosedGo (close : Char) (acc : Chars) : Chars → Option (Chars × Bool × Chars)
  | [] => some (acc.reverse, false, [])
  | c :: rest =>
    if c = close then some (acc.reverse, true, rest)
    else if c = '\n' then
      -- `$` also matches just before a trailing newline
      if rest = [] then some (acc.reverse, false, [c]) else none
    else scanEnclosedGo close (c :: acc) rest

def scanEnclosed (close : Char) : Chars → Option (Chars × Bool × Chars)
  | [] => none
  | c :: rest => if c = '\n' then none else scanEnclosedGo close [c] rest

/-- Alternative 1: `"(.+?)(?:"|$)` — the capture excludes the quotes. -/
def matchPhrase : Chars → Option (Chars × Chars)
  | c :: rest =>
    if c = '"' then
      match scanEnclosed '"' rest with
      | some (content, _, r) => some (content, r)
      | none => none
    else none
  | [] => none

/-- The field-query group `(".+?(?:"|$)|\(.+?(?:\)|$)|[\S]+)`; the
capture of the first two alternatives includes the delimiters. -/
def matchFieldQuery (s : Chars) : Option (Chars × Chars) :=
  match s with
  | c :: rest =>
    if c = '"' then
      match scanEnclosed '"' rest with
      | some (content, closed, r) =>
        some ('"' :: content ++ (if closed then ['"'] else []), r)
      | none => fqWord s
    else if c = '(' then
      match scanEnclosed ')' rest with
      | some (content, closed, r) =>
        some ('(' :: content ++ (if closed then [')'] else []), r)
      | none => fqWord s
    else fqWord s
  | [] => none
where
  fqWord (s : Chars) : Option (Chars × Chars) :=
    let run := s.takeWhile (fun c => ¬ isPyWS c)
    if run = [] then none else some (run, s.dropWhile (fun c => ¬ isPyWS c))

/-- The colon split positions of `([\S]+):`, tried longest field first
(greedy `[\S]+` backtracking). -/
def colonSplitsDesc (run : Chars) : List Nat :=
  ((List.range run.length).filter
      (fun l => 1 ≤ l ∧ run.getD l ' ' = ':')).reverse

def trySplits (run rest' : Chars) : List Nat → Option (Chars × Chars × Chars)
  | [] => none
  | l :: more =>
    match matchFieldQuery (run.drop (l + 1) ++ rest') with
    | some (fq, r) => some (run.take l, fq, r)
    | none => trySplits run rest' more

/-- `([\S]+):(...)` at the current position (sign already handled). -/
def fieldCore (s : Chars) : Option (Chars × Chars × Chars) :=
  let run := s.takeWhile (fun c => ¬ isPyWS c)
  if run = [] then none
  else trySplits run (s.dropWhile (fun c => ¬ isPyWS c)) (colonSplitsDesc run)

/-- Alternative 2: `([+-]?)([\S]+):(...)`: the greedy optional sign is
tried consumed first, then empty (the sign character then belongs to
`[\S]+`). -/
def matchField : Chars → Option (Chars × Chars × Chars × Chars)
  | [] => none
  | c :: rest =>
    if c = '+' ∨ c = '-' then
      match fieldCore rest with
      | some (f, fq, r) => some ([c], f, fq, r)
      | none =>
        match fieldCore (c :: rest) with
        | some (f, fq, r) => some ([], f, fq, r)
        | none => none
    else
      match fieldCore (c :: rest) with
      | some (f, fq, r) => some ([], f, fq, r)
      | none => none

/-- Alternative 3: `([+-]?)([\S]+)`. -/
def matchWord : Chars → Option (Chars × Chars × Chars)
  | [] => none
  | c :: rest =>
    if c = '+' ∨ c = '-' then
      let run := rest.takeWhile (fun x => ¬ isPyWS x)
      if run = [] then some ([], [c], rest)
      else some ([c], run, rest.dropWhile (fun x => ¬ isPyWS x))
    else
      let run := (c :: rest).takeWhile (fun x => ¬ isPyWS x)
      if run = [] then none
      else some ([], run, (c :: rest).dropWhile (fun x => ¬ isPyWS x))

/-- The `findall` scan; every successful match consumes at least one
character, so fuel `s.length` suffices. -/
def parseLoop : Nat → Chars → List QueryPart
  | 0, _ => []
  | _ + 1, [] => []
  | fuel + 1, c :: rest =>
    match matchPhrase (c :: rest) with
    | some (ph, r) => ⟨ph, [], [], [], [], []⟩ :: parseLoop fuel r
    | none =>
      match matchField (c :: rest) with
      | some (fop, f, fq, r) => ⟨[], fop, f, fq, [], []⟩ :: parseLoop fuel r
      | none =>
        match matchWord (c :: rest) with
        | some (wop, w, r) => ⟨[], [], [], [], wop, w⟩ :: parseLoop fuel r
        | none => parseLoop fuel rest

/-- `parse_query(query)` (line 66-67). -/
def parseQuery (s : Chars) : List QueryPart := parseLoop s.length s

/-! ### The scoring update of `_word_search` (trwbl.py lines 336-347)

The inclusion branch that contains these lines is unreachable in the
source (an `AttributeError` on `self._get_distances` fires first, see
`wordSearch` below); the update rule itself, which claim C2 cites, is
embedded here exactly as written. -/

/-- The per-distance reassignment of lines 337-343. -/
def distMod (d : ℤ) : ℚ :=
  if d = 1 then 1 / 4
  else if 1 < d ∧ d < 5 then (d : ℚ) / 2
  else if d < 0 then -(d : ℚ)
  else (d : ℚ)

/-- `weight_mod.append(0.01 / distance)` for each distance; a distance
whose modified value is 0 raises `ZeroDivisionError` in Python. -/
def weightModTerms : List ℤ → Except PyErr (List ℚ)
  | [] => .ok []
  | d :: rest =>
    if distMod d = 0 then .error .zeroDivisionError
    else
      match weightModTerms rest with
      | .error e => .error e
      | .ok ts => .ok ((1 / 100) / distMod d :: ts)

/-- `modified_weight = weight * sum(weight_mod)` with
`weight_mod = [1] ++ terms` (lines 336-345). -/
def clauseContribution (weight : ℚ) (distances : List ℤ) : Except PyErr ℚ :=
  match weightModTerms distances with
  | .error e => .error e
  | .ok ts => .ok (weight * (1 + ts.sum))

/-- `score += (1 - score) * modified_weight` (line 346). -/
def scoreUpdate (weight score : ℚ) (distances : List ℤ) : Except PyErr ℚ :=
  match clauseContribution weight distances with
  | .error e => .error e
  | .ok c => .ok (score + (1 - score) * c)

/-- One score update per matching clause, applied left to right. -/
def applyClauses (s : ℚ) : List (ℚ × List ℤ) → Except PyErr ℚ
  | [] => .ok s
  | (w, ds) :: rest =>
    match scoreUpdate w s ds with
    | .error e => .error e
    | .ok s' => applyClauses s' rest

/-! ### `ResultSet` (trwbl.py lines 248-351)

`_word_search` is embedded exactly as control flow reaches it:

* the token loop (lines 308-315) looks a token up in the field's
  postings; a second found token calls `get_consecutive` on a plain
  dict (`Field.add` stores plain dicts, never `TokenLocations`), an
  `AttributeError`;
* the exclusion branch (lines 317-319) filters `document_scores`,
  raising `TypeError` when `locations` is still `None` (`x[1] not in
  None`);
* the inclusion branch's first statement (line 321) evaluates
  `self._get_distances`, an attribute `ResultSet` does not define, so
  it raises `AttributeError` before lines 323-347 can run;
* with no weighted fields the loop never binds the local `locations`,
  so line 351 raises `NameError`. -/

/-- Python truthiness of the local `previous_locations` (a dict or
`None`). -/
def locTruthy : Option TokLoc → Bool
  | none => false
  | some d => ¬ d.isEmpty

def tokLocHasDoc (d : TokLoc) (docId : Nat) : Bool :=
  (alookup d docId).isSome

/-- Lines 308-315: iterate the sub-tokens, keeping the last found
token's posting dict; arguments are `(tokens, locations,
previous_locations)`. -/
def tokenLoop (ts : Postings) :
    List Chars → Option TokLoc → Option TokLoc → Except PyErr (Option TokLoc)
  | [], loc, _ => .ok loc
  | t :: rest, loc, prev =>
    match alookup ts t with
    | none => tokenLoop ts rest loc prev
    | some d =>
      if locTruthy prev then
        .error (.attributeError "get_consecutive")
      else tokenLoop ts rest (some d) (some d)

/-- The body of the `for weight, field_name in
self.index.weighted_fields:` loop for one field (lines 298-347). -/
def wsField (idx : Index) (negative : Bool) (word : Chars)
    (scores : List (ℚ × Nat)) (fname : String) :
    Except PyErr (List (ℚ × Nat) × TokLoc) :=
  match lookupField idx fname with
  | .error e => .error e
  | .ok fld =>
    match tokenLoop fld.tokens (tkTokenize fld.tokenizer word) none none with
    | .error e => .error e
    | .ok loc =>
      if negative then
        match loc with
        | none => .error (.typeError "argument of type NoneType is not iterable")
        | some d => .ok (scores.filter (fun x => ¬ tokLocHasDoc d x.2), d)
      else .error (.attributeError "_get_distances")

/-- The weighted-field loop; the `TokLoc` returned is the last
iteration's `locations`, assigned to `self.previous_locations` at
line 351 (with no weighted fields that local was never bound:
`NameError`). -/
def wsLoop (idx : Index) (negative : Bool) (word : Chars)
    (scores : List (ℚ × Nat)) :
    List (ℚ × String) → Except PyErr (List (ℚ × Nat) × TokLoc)
  | [] => .error (.nameError "locations")
  | [(_, fname)] => wsField idx negative word scores fname
  | (_, fname) :: wf :: rest =>
    match wsField idx negative word scores fname with
    | .error e => .error e
    | .ok (scores', _) => wsLoop idx negative word scores' (wf :: rest)

/-- `ResultSet._word_search(word, word_op)` (lines 289-351). -/
def wordSearch (idx : Index) (scores : List (ℚ × Nat)) (word : Chars)
    (word_op : Chars) : Except PyErr (List (ℚ × Nat) × TokLoc) :=
  wsLoop idx (word_op = ['-']) word scores idx.weighted_fields

/-- Python tuple comparison on `(score, document_id)` pairs. -/
def scoreLE (a b : ℚ × Nat) : Prop :=
  a.1 < b.1 ∨ (a.1 = b.1 ∧ a.2 ≤ b.2)

instance : DecidableRel scoreLE := fun a b => by
  unfold scoreLE; exact inferInstance

instance : IsTotal (ℚ × Nat) scoreLE := ⟨by
  intro a b
  unfold scoreLE
  rcases lt_trichotomy a.1 b.1 with h | h | h
  · exact Or.inl (Or.inl h)
  · rcases Nat.le_total a.2 b.2 with h2 | h2
    · exact Or.inl (Or.inr ⟨h, h2⟩)
    · exact Or.inr (Or.inr ⟨h.symm, h2⟩)
  · exact Or.inr (Or.inl h)⟩

instance : IsTrans (ℚ × Nat) scoreLE := ⟨by
  intro a b c hab hbc
  unfold scoreLE at hab hbc ⊢
  rcases hab with h1 | ⟨h1, h1'⟩
  · rcases hbc with h2 | ⟨h2, _⟩
    · exact Or.inl (h1.trans h2)
    · exact Or.inl (by rw [← h2]; exact h1)
  · rcases hbc with h2 | ⟨h2, h2'⟩
    · exact Or.inl (by rw [h1]; exact h2)
    · exact Or.inr ⟨h1.trans h2, h1'.trans h2'⟩⟩

/-- `self.document_scores.sort(); self.document_scores.reverse()`
(lines 275-276): stable ascending sort, then reverse. -/
def pySortDesc (l : List (ℚ × Nat)) : List (ℚ × Nat) :=
  (List.insertionSort scoreLE l).reverse

/-- The ranked output of a search: the sorted score list, the list of
document references in rank order, and the heap after the score
attachments. -/
structure SearchOut where
  document_scores : List (ℚ × Nat)
  documents : List Nat
  heap : Heap
deriving DecidableEq

/-- The loop of `ResultSet.populate` (lines 277-280): look each ranked
id up in `index.documents`, attach the score to that shared object,
and append the reference. -/
def populateGo (idx : Index) (h : Heap) (acc : List Nat) :
    List (ℚ × Nat) → Except PyErr (List Nat × Heap)
  | [] => .ok (acc, h)
  | (s, did) :: rest =>
    match alookup idx.documents did with
    | none => .error .keyError
    | some r =>
      populateGo idx (hSet h r { hGet h r with score := some s }) (acc ++ [r]) rest

def populate (idx : Index) (h : Heap) (scores : List (ℚ × Nat)) :
    Except PyErr SearchOut :=
  match populateGo idx h [] (pySortDesc scores) with
  | .error e => .error e
  | .ok (docs, h') => .ok ⟨pySortDesc scores, docs, h'⟩

/-- The clause loop of `ResultSet.search` (lines 257-270):
`_phrase_search` is `pass`; a field-scoped clause calls the undefined
name `field_query_parse` (line 266), a `NameError`; a bare word runs
`_word_search`. -/
def runParts (idx : Index) (scores : List (ℚ × Nat)) :
    List QueryPart → Except PyErr (List (ℚ × Nat))
  | [] => .ok scores
  | p :: rest =>
    if p.field_query ≠ [] then .error (.nameError "field_query_parse")
    else if p.word ≠ [] then
      match wordSearch idx scores p.word p.word_op with
      | .error e => .error e
      | .ok (scores', _) => runParts idx scores' rest
    else runParts idx scores rest

/-- `ResultSet.__init__` + `search` + `populate` (lines 248-281):
seed every document's score at 0, run the parsed clauses, rank. -/
def searchX (idx : Index) (h : Heap) (q : Chars) : Except PyErr SearchOut :=
  let scores0 := idx.documents.map (fun kv => ((0 : ℚ), kv.1))
  match runParts idx scores0 (parseQuery q) with
  | .error e => .error e
  | .ok scores => populate idx h scores

/-! ### Concrete scenarios

`dsState` is the worked example of the module docstring (trwbl.py
lines 7-34); `s8State` is the concrete scenario of spec §8. -/

def dsSpecs : List FieldSpec :=
  [⟨"title", true, true, none, qlit 9 10 (by norm_num) (by norm_num), some (.words true)⟩,
   ⟨"author", true, true, none, qlit 3 5 (by norm_num) (by norm_num), some (.words true)⟩,
   ⟨"keyword", true, true, some "keyword_str", qlit 1 2 (by norm_num) (by norm_num), some (.words true)⟩,
   ⟨"keyword_str", true, true, none, 0, none⟩,
   ⟨"content", true, false, none, qlit 1 10 (by norm_num) (by norm_num), some (.words true)⟩]

def dsDoc1 : Doc :=
  ⟨[("title", some (.str "The Troll Mountain".toList)),
    ("author", some (.str "Eleanor McGearyson".toList)),
    ("keyword", some (.str "Troll".toList))], none, none⟩

def dsDoc2 : Doc :=
  ⟨[("title", some (.str "Hoopdie McGee".toList)),
    ("author", some (.str "Horrible Masterson".toList)),
    ("keyword", some (.strs ["baby".toList, "soup".toList]))], none, none⟩

/-- Build the docstring index and add both documents. -/
def dsState : Except PyErr (Index × Heap) :=
  match mkIndex dsSpecs with
  | .error e => .error e
  | .ok i =>
    match indexAdd i [dsDoc1, dsDoc2] 0 with
    | .error e => .error e
    | .ok (i1, h1) => indexAdd i1 h1 1

def dsIH : Index × Heap := okOr dsState (emptyIndex, [])

def s8Specs : List FieldSpec :=
  [⟨"title", true, true, none, qlit 9 10 (by norm_num) (by norm_num), some (.words true)⟩,
   ⟨"keyword", true, true, some "keyword_exact", qlit 1 2 (by norm_num) (by norm_num), some (.words true)⟩,
   ⟨"keyword_exact", true, true, none, 0, none⟩]

def s8DocA : Doc :=
  ⟨[("title", some (.str "The Troll Mountain".toList)),
    ("keyword", some (.str "Troll".toList))], none, none⟩

def s8DocB : Doc :=
  ⟨[("title", some (.str "Hoopdie McGee".toList)),
    ("keyword", some (.strs ["baby".toList, "soup".toList]))], none, none⟩

def s8State : Except PyErr (Index × Heap) :=
  match mkIndex s8Specs with
  | .error e => .error e
  | .ok i =>
    match indexAdd i [s8DocA, s8DocB] 0 with
    | .error e => .error e
    | .ok (i1, h1) => indexAdd i1 h1 1

def s8IH : Index × Heap := okOr s8State (emptyIndex, [])

/-- A schema whose only field aliases (`copy_to`) an undeclared field. -/
def c4Specs : List FieldSpec :=
  [⟨"a", true, true, some "b", qlit 1 10 (by norm_num) (by norm_num), some (.words true)⟩]

def c4Index : Index := okOr (mkIndex c4Specs) emptyIndex

def c4Doc : Doc := ⟨[("a", some (.str ['x']))], none, none⟩

/-- A schema whose only field aliases a declared but unindexed field. -/
def c4bSpecs : List FieldSpec :=
  [⟨"a", true, true, some "b", qlit 1 10 (by norm_num) (by norm_num), some (.words true)⟩,
   ⟨"b", false, true, none, qlit 1 10 (by norm_num) (by norm_num), some (.words true)⟩]

def c4bIndex : Index := okOr (mkIndex c4bSpecs) emptyIndex

/-- A field declared `store=False, index=False`. -/
def c5Specs : List FieldSpec :=
  [⟨"c", false, false, none, qlit 1 10 (by norm_num) (by norm_num), some (.words true)⟩]

def c5Index : Index := okOr (mkIndex c5Specs) emptyIndex

def c5Doc : Doc := ⟨[("c", some (.str "hello".toList))], none, none⟩

/-- A field declared `store=False` and indexed (`contents` in
src/artsearch.py). -/
def c5bSpecs : List FieldSpec :=
  [⟨"contents", true, false, none, qlit 1 10 (by norm_num) (by norm_num), some (.words true)⟩]

def c5bIndex : Index := okOr (mkIndex c5bSpecs) emptyIndex

def c5bDoc : Doc := ⟨[("contents", some (.str "hello world".toList))], none, none⟩

def c4bResult : Index × Heap :=
  okOr (indexAdd c4bIndex [c4Doc] 0) (emptyIndex, [])

def c5Result : Index × Heap :=
  okOr (indexAdd c5Index [c5Doc] 0) (emptyIndex, [])

def c5bResult : Index × Heap :=
  okOr (indexAdd c5bIndex [c5bDoc] 0) (emptyIndex, [])

/-! ## Helper lemmas -/

theorem qlit_eq_div (n : Int) (d : Nat) (h1 : d ≠ 0) (h2 : n.natAbs.Coprime d) :
    qlit n d h1 h2 = (n : ℚ) / (d : ℚ) := by
  rw [qlit, Rat.mk'_eq_divInt, Rat.divInt_eq_div]
  norm_cast

theorem alookup_isSome_iff {α β : Type} [DecidableEq α] (l : List (α × β)) (k : α) :
    (alookup l k).isSome = true ↔ k ∈ l.map Prod.fst := by
  induction l with
  | nil => simp [alookup]
  | cons p rest ih =>
    obtain ⟨a, b⟩ := p
    by_cases hk : a = k
    · subst hk; simp [alookup]
    · have hk' : ¬ k = a := fun h => hk h.symm
      simp [alookup, hk, hk', ih]

theorem addWeighted_fields (idx : Index) (f : Field) :
    (addWeighted idx f).fields = idx.fields := by
  unfold addWeighted; split <;> rfl

theorem registerField_error_iff (idx : Index) (f : Field) :
    isErr (registerField idx f) = true ↔ f.name ∈ idx.fields.map Prod.fst := by
  rw [← alookup_isSome_iff]
  unfold registerField
  rcases h : (alookup idx.fields f.name).isSome with _ | _ <;>
    simp [h, isErr]

theorem registerField_ok_fields {idx idx' : Index} {f : Field}
    (h : registerField idx f = .ok idx') :
    idx'.fields = idx.fields ++ [(f.name, f)] := by
  unfold registerField at h
  split at h
  · exact absurd h (by simp)
  · cases h
    exact addWeighted_fields _ _

theorem mkField_error_iff (s : FieldSpec) :
    isErr (mkField s) = true ↔ ¬ (0 ≤ s.weight ∧ s.weight ≤ 1) := by
  unfold mkField
  split <;> simp [isErr, *]

theorem mkField_ok_name {s : FieldSpec} {f : Field} (h : mkField s = .ok f) :
    f.name = s.name := by
  unfold mkField at h
  split at h
  · cases h; rfl
  · exact absurd h (by simp)

theorem mkFields_error_iff (specs : List FieldSpec) :
    isErr (mkFields specs) = true ↔
      ∃ s ∈ specs, isErr (mkField s) = true := by
  induction specs with
  | nil => simp [mkFields, isErr]
  | cons s rest ih =>
    rcases h : mkField s with e | f
    · simp only [mkFields, h, isErr]
      constructor
      · intro _
        exact ⟨s, List.mem_cons_self _ _, by simp [h, isErr]⟩
      · intro _; trivial
    · rcases h2 : mkFields rest with e2 | fs2
      · simp only [mkFields, h, h2, isErr]
        constructor
        · intro _
          obtain ⟨x, hx, hxe⟩ := ih.1 (by simp [h2, isErr])
          exact ⟨x, List.mem_cons_of_mem _ hx, hxe⟩
        · intro _; trivial
      · simp only [mkFields, h, h2, isErr]
        constructor
        · intro hc; cases hc
        · rintro ⟨x, hx, hxe⟩
          rcases List.mem_cons.1 hx with rfl | hx'
          · rw [h] at hxe; simp [isErr] at hxe
          · have := ih.2 ⟨x, hx', hxe⟩
            rw [h2] at this; simp [isErr] at this

theorem mkFields_ok_names {specs : List FieldSpec} {fs : List Field}
    (h : mkFields specs = .ok fs) :
    fs.map Field.name = specs.map FieldSpec.name := by
  induction specs generalizing fs with
  | nil => unfold mkFields at h; cases h; rfl
  | cons s rest ih =>
    unfold mkFields at h
    rcases hf : mkField s with e | f <;> rw [hf] at h
    · exact absurd h (by simp)
    · rcases h2 : mkFields rest with e2 | fs2 <;> rw [h2] at h
      · exact absurd h (by simp)
      · cases h
        simp [ih h2, mkField_ok_name hf]

theorem regFields_error_iff (fs : List Field) :
    ∀ idx : Index, (idx.fields.map Prod.fst).Nodup →
      (isErr (regFields idx fs) = true ↔
        ¬ (idx.fields.map Prod.fst ++ fs.map Field.name).Nodup) := by
  induction fs with
  | nil => intro idx h; simp [regFields, isErr, h]
  | cons f rest ih =>
    intro idx hnd
    rcases h : registerField idx f with e | idx'
    · simp only [regFields, h, isErr]
      constructor
      · intro _
        have hmem : f.name ∈ idx.fields.map Prod.fst := by
          rw [← registerField_error_iff]; simp [h, isErr]
        intro hcon
        rw [List.nodup_append] at hcon
        exact hcon.2.2 hmem (by simp)
      · intro _; trivial
    · simp only [regFields, h]
      have hmem : f.name ∉ idx.fields.map Prod.fst := by
        rw [← registerField_error_iff]; simp [h, isErr]
      have hkeys : idx'.fields.map Prod.fst = idx.fields.map Prod.fst ++ [f.name] := by
        simp [registerField_ok_fields h]
      have hnd' : (idx'.fields.map Prod.fst).Nodup := by
        rw [hkeys, List.nodup_append]
        refine ⟨hnd, List.nodup_singleton _, ?_⟩
        intro a ha hb
        rw [List.mem_singleton] at hb
        exact hmem (hb ▸ ha)
      rw [ih idx' hnd', hkeys, List.append_assoc, List.singleton_append,
        List.map_cons]

/-! ## Claim C6 -/

/-- **C6** (confirmed).  Index construction raises a schema error
(`FieldException`/`IndexException`) exactly when the field list
declares two fields with the same name or some field's weight lies
outside `[0, 1]`; and constructing a single `Field` with weight `w`
raises iff `¬ (0 ≤ w ≤ 1)`.  Both happen before any document is
added (construction precedes every `add`). -/
theorem c6_schema_construction_errors :
    (∀ specs : List FieldSpec,
       isErr (mkIndex specs) = true ↔
         (¬ (specs.map FieldSpec.name).Nodup ∨
           ∃ s ∈ specs, ¬ (0 ≤ s.weight ∧ s.weight ≤ 1))) ∧
    (∀ s : FieldSpec,
       isErr (mkField s) = true ↔ ¬ (0 ≤ s.weight ∧ s.weight ≤ 1)) := by
  have hbridge : ∀ specs : List FieldSpec,
      (∃ s ∈ specs, isErr (mkField s) = true) ↔
        ∃ s ∈ specs, ¬ (0 ≤ s.weight ∧ s.weight ≤ 1) := by
    intro specs
    constructor
    · rintro ⟨s, hs, he⟩
      exact ⟨s, hs, (mkField_error_iff s).1 he⟩
    · rintro ⟨s, hs, hw⟩
      exact ⟨s, hs, (mkField_error_iff s).2 hw⟩
  refine ⟨?_, mkField_error_iff⟩
  intro specs
  rcases h : mkFields specs with e | fs
  · have hbad : ∃ s ∈ specs, ¬ (0 ≤ s.weight ∧ s.weight ≤ 1) := by
      rw [← hbridge, ← mkFields_error_iff]; simp [h, isErr]
    simp only [mkIndex, h, isErr]
    constructor
    · intro _; exact Or.inr hbad
    · intro _; trivial
  · have hgood : ¬ ∃ s ∈ specs, ¬ (0 ≤ s.weight ∧ s.weight ≤ 1) := by
      rw [← hbridge, ← mkFields_error_iff]; simp [h, isErr]
    simp only [mkIndex, h]
    have hreg := regFields_error_iff fs emptyIndex (by simp [emptyIndex])
    rw [hreg]
    have he : emptyIndex.fields.map Prod.fst = ([] : List String) := rfl
    rw [he, List.nil_append, mkFields_ok_names h]
    constructor
    · exact Or.inl
    · rintro (hn | hb)
      · exact hn
      · exact absurd hb hgood

/-! ## Claim C7 -/

theorem scanGo_closes (close : Char) (rest : Chars) :
    ∀ (p acc : Chars), close ∉ p → '\n' ∉ p →
      scanEnclosedGo close acc (p ++ close :: rest) =
        some (acc.reverse ++ p, true, rest) := by
  intro p
  induction p with
  | nil => intro acc _ _; simp [scanEnclosedGo]
  | cons c p' ih =>
    intro acc hq hn
    have hc : ¬ c = close := by
      intro h; subst h; exact hq (List.mem_cons_self _ _)
    have hcn : ¬ c = '\n' := by
      intro h; subst h; exact hn (List.mem_cons_self _ _)
    rw [List.cons_append]
    simp only [scanEnclosedGo, if_neg hc, if_neg hcn]
    rw [ih (c :: acc) (fun hm => hq (List.mem_cons_of_mem _ hm))
        (fun hm => hn (List.mem_cons_of_mem _ hm))]
    simp

theorem scanGo_toEnd (close : Char) :
    ∀ (p acc : Chars), close ∉ p → '\n' ∉ p →
      scanEnclosedGo close acc p = some (acc.reverse ++ p, false, []) := by
  intro p
  induction p with
  | nil => intro acc _ _; simp [scanEnclosedGo]
  | cons c p' ih =>
    intro acc hq hn
    have hc : ¬ c = close := by
      intro h; subst h; exact hq (List.mem_cons_self _ _)
    have hcn : ¬ c = '\n' := by
      intro h; subst h; exact hn (List.mem_cons_self _ _)
    simp only [scanEnclosedGo, if_neg hc, if_neg hcn]
    rw [ih (c :: acc) (fun hm => hq (List.mem_cons_of_mem _ hm))
        (fun hm => hn (List.mem_cons_of_mem _ hm))]
    simp

theorem matchPhrase_closes {p : Chars} (rest : Chars) (hne : p ≠ [])
    (hq : '"' ∉ p) (hn : '\n' ∉ p) :
    matchPhrase ('"' :: p ++ '"' :: rest) = some (p, rest) := by
  rcases p with _ | ⟨c, p'⟩
  · exact absurd rfl hne
  · have hcn : ¬ c = '\n' := by
      intro h; subst h; exact hn (List.mem_cons_self _ _)
    rw [List.cons_append]
    simp only [matchPhrase, if_pos rfl, List.cons_append, scanEnclosed, if_neg hcn]
    rw [scanGo_closes '"' rest p' [c]
        (fun hm => hq (List.mem_cons_of_mem _ hm))
        (fun hm => hn (List.mem_cons_of_mem _ hm))]
    simp

theorem matchPhrase_toEnd {p : Chars} (hne : p ≠ [])
    (hq : '"' ∉ p) (hn : '\n' ∉ p) :
    matchPhrase ('"' :: p) = some (p, []) := by
  rcases p with _ | ⟨c, p'⟩
  · exact absurd rfl hne
  · have hcn : ¬ c = '\n' := by
      intro h; subst h; exact hn (List.mem_cons_self _ _)
    simp only [matchPhrase, if_pos rfl, scanEnclosed, if_neg hcn]
    rw [scanGo_toEnd '"' p' [c]
        (fun hm => hq (List.mem_cons_of_mem _ hm))
        (fun hm => hn (List.mem_cons_of_mem _ hm))]
    simp

theorem parseLoop_succ_cons (fuel : Nat) (c : Char) (rest : Chars) :
    parseLoop (fuel + 1) (c :: rest) =
      match matchPhrase (c :: rest) with
      | some (ph, r) => ⟨ph, [], [], [], [], []⟩ :: parseLoop fuel r
      | none =>
        match matchField (c :: rest) with
        | some (fop, f, fq, r) => ⟨[], fop, f, fq, [], []⟩ :: parseLoop fuel r
        | none =>
          match matchWord (c :: rest) with
          | some (wop, w, r) => ⟨[], [], [], [], wop, w⟩ :: parseLoop fuel r
          | none => parseLoop fuel rest := rfl

/-- **C7** (confirmed).  The query parser never splits a quoted
segment at a colon inside the quotes: for any quote-free, newline-free
nonempty `p` (which may contain colons) the input `"p"rest` parses to
the single phrase clause `p` followed by the parse of `rest`; and a
quote with no matching closing quote captures everything to the end of
the input as one phrase clause. -/
theorem c7_quoted_segments :
    (∀ p rest : Chars, p ≠ [] → '"' ∉ p → '\n' ∉ p →
       ∃ tail, parseQuery ('"' :: p ++ '"' :: rest) =
         ⟨p, [], [], [], [], []⟩ :: tail) ∧
    (∀ p : Chars, p ≠ [] → '"' ∉ p → '\n' ∉ p →
       parseQuery ('"' :: p) = [⟨p, [], [], [], [], []⟩]) := by
  constructor
  · intro p rest hne hq hn
    refine ⟨parseLoop (p ++ '"' :: rest).length rest, ?_⟩
    rw [List.cons_append]
    simp only [parseQuery, List.length_cons]
    rw [parseLoop_succ_cons]
    rw [← List.cons_append, matchPhrase_closes rest hne hq hn]
  · intro p hne hq hn
    rcases p with _ | ⟨c, p'⟩
    · exact absurd rfl hne
    · simp only [parseQuery, List.length_cons]
      rw [parseLoop_succ_cons]
      rw [matchPhrase_toEnd hne hq hn]
      rfl

/-- Witness for C7: `"a:b c" troll` keeps the colon inside the quotes
in one phrase clause, and `"unclosed to end` runs to the end of the
input. -/
theorem c7_quoted_segments_witness :
    (∃ tail, parseQuery ('"' :: "a:b c".toList ++ '"' :: " troll".toList) =
       ⟨"a:b c".toList, [], [], [], [], []⟩ :: tail) ∧
    parseQuery ('"' :: "unclosed to end".toList) =
      [⟨"unclosed to end".toList, [], [], [], [], []⟩] :=
  ⟨c7_quoted_segments.1 "a:b c".toList " troll".toList (by decide) (by decide)
      (by decide),
   c7_quoted_segments.2 "unclosed to end".toList (by decide) (by decide)
      (by decide)⟩

/-! ## Claim C2 -/

/-- **C2, counterexample.**  The claim "the accumulated score never
exceeds 1" fails for the update rule of lines 336-347 as written:
with the valid field weight 0.9 and three distance-1 location pairs
the proximity-modified sum is `1 + 3 * 0.04 = 1.12`, the contribution
is `0.9 * 1.12 = 1.008 > 1`, and one update takes a document score
from 0 to 1.008 > 1. -/
theorem c2_counterexample :
    scoreUpdate (9/10) 0 [1, 1, 1] = .ok (126/125) ∧ (1 : ℚ) < 126/125 := by
  constructor
  · norm_num [scoreUpdate, clauseContribution, weightModTerms, distMod]
  · norm_num

/-- **C2** (corrected).  Each clause updates the score by
`score + (1 - score) * contribution` with
`contribution = weight * (1 + Σ 0.01 / d̃)` (lines 336-347), and the
score stays in `[0, 1]` for any number of matching inclusion clauses
*provided* every clause's contribution lies in `[0, 1]`; a
contribution above 1 breaks the bound (see the counterexample for this
claim). -/
theorem c2_score_bounded_when_contributions_bounded :
    ∀ (updates : List (ℚ × List ℤ)) (s0 s : ℚ),
      0 ≤ s0 → s0 ≤ 1 →
      (∀ u ∈ updates, ∃ c, clauseContribution u.1 u.2 = .ok c ∧ 0 ≤ c ∧ c ≤ 1) →
      applyClauses s0 updates = .ok s → 0 ≤ s ∧ s ≤ 1 := by
  intro updates
  induction updates with
  | nil =>
    intro s0 s h0 h1 _ heq
    unfold applyClauses at heq
    cases heq
    exact ⟨h0, h1⟩
  | cons u rest ih =>
    obtain ⟨w, ds⟩ := u
    intro s0 s h0 h1 hcs heq
    obtain ⟨c, hc, hc0, hc1⟩ := hcs (w, ds) (List.mem_cons_self _ _)
    have hupd : scoreUpdate w s0 ds = .ok (s0 + (1 - s0) * c) := by
      unfold scoreUpdate
      rw [hc]
    unfold applyClauses at heq
    rw [hupd] at heq
    have h0' : 0 ≤ s0 + (1 - s0) * c := by nlinarith
    have h1' : s0 + (1 - s0) * c ≤ 1 := by nlinarith
    exact ih (s0 + (1 - s0) * c) s h0' h1'
      (fun v hv => hcs v (List.mem_cons_of_mem _ hv)) heq

/-- Witness for C2 (amended): one clause with weight 0.5 and a single
distance-2 pair has contribution `0.5 * 1.01 = 0.505 ≤ 1` and takes
the score from 0 to 0.505 ≤ 1. -/
theorem c2_score_bounded_witness :
    applyClauses 0 [((1/2 : ℚ), [(2 : ℤ)])] = .ok (101/200) ∧
      0 ≤ (101/200 : ℚ) ∧ (101/200 : ℚ) ≤ 1 := by
  have heval : applyClauses 0 [((1/2 : ℚ), [(2 : ℤ)])] = .ok (101/200) := by
    norm_num [applyClauses, scoreUpdate, clauseContribution, weightModTerms, distMod]
  refine ⟨heval, c2_score_bounded_when_contributions_bounded
    [((1/2 : ℚ), [(2 : ℤ)])] 0 (101/200) (by norm_num) (by norm_num) ?_ heval⟩
  intro u hu
  rw [List.mem_singleton] at hu
  subst hu
  refine ⟨101/200, ?_, by norm_num, by norm_num⟩
  norm_num [clauseContribution, weightModTerms, distMod]

/-! ## Claim C1 -/

/-- **C1** (code_bug).  In the module docstring's own worked example
(trwbl.py lines 7-34) the index builds and both documents are added
without error, `"baby"` is a token the tokenizer of the stored,
indexed field `keyword` produced from document 1's value, and that
token's posting for document 1 is in the field's postings — yet
`search("baby")` raises `AttributeError` (the inclusion branch of
`_word_search` line 321 evaluates `self._get_distances`, which
`ResultSet` never defines) instead of returning a result set
containing the document.  The docstring promises `Hoopdie McGee` is
returned. -/
theorem c1_single_token_search_crashes :
    isErr dsState = false ∧
    (docGet dsDoc2 "keyword").elim []
        (fun v => (fvalOccs v).flatMap (tkTokenize (.words true))) =
      ["baby".toList, "soup".toList] ∧
    (alookup dsIH.1.fields "keyword").map Field.store = some true ∧
    (alookup dsIH.1.fields "keyword").map Field.index = some true ∧
    hasPostingB ((alookup dsIH.1.fields "keyword").elim [] Field.tokens)
      "baby".toList 1 = true ∧
    searchX dsIH.1 dsIH.2 "baby".toList =
      .error (.attributeError "_get_distances") :=
  ⟨by decide, by decide, by decide, by decide, by decide, by decide⟩

/-! ## Claim C3 -/

/-- **C3** (code_bug).  In the concrete scenario of spec §8 the index
builds and both documents are added, `keyword` is a weighted field,
document 1 (doc B) matches the token `soup` there, and `-soup` parses
as an exclusion word clause — yet `search("-soup")` raises `TypeError`
instead of removing B and returning [A]: the weighted-field loop
visits `title` first (highest weight), `soup` has no posting there, so
`locations` is still `None` when the exclusion branch evaluates
`x[1] not in locations` (line 319). -/
theorem c3_exclusion_search_crashes :
    isErr s8State = false ∧
    s8IH.1.weighted_fields.map Prod.snd = ["title", "keyword"] ∧
    hasPostingB ((alookup s8IH.1.fields "keyword").elim [] Field.tokens)
      "soup".toList 1 = true ∧
    parseQuery "-soup".toList = [⟨[], [], [], [], ['-'], "soup".toList⟩] ∧
    searchX s8IH.1 s8IH.2 "-soup".toList =
      .error (.typeError "argument of type NoneType is not iterable") :=
  ⟨by decide, by decide, by decide, by decide, by decide⟩

/-! ## Claim C8 -/

/-- **C8** (confirmed).  Serializing an index with `dump` and loading
the blob into a fresh, empty index (`Index()`, whose `__dict__` is
empty, modelled as `none`) succeeds and yields an index whose `search`
produces exactly the same outcome as the original for every query.
`cPickle` is modelled as a faithful round-trip of the reachable object
graph (every object in it is picklable; the `re` module registers a
`copy_reg` pickler for compiled patterns). -/
theorem c8_dump_load_same_search :
    ∀ (idx : Index) (h : Heap) (q : Chars) (target : Option Blob),
      target = none →
      ∃ b : Blob, indexLoad target (indexDump idx h) = .ok b ∧
        searchX b.1 b.2 q = searchX idx h q := by
  intro idx h q target ht
  subst ht
  exact ⟨(idx, h), rfl, rfl⟩

/-- Witness for C8 at the docstring index and the query `baby`. -/
theorem c8_dump_load_same_search_witness :
    ∃ b : Blob, indexLoad none (indexDump dsIH.1 dsIH.2) = .ok b ∧
      searchX b.1 b.2 "baby".toList = searchX dsIH.1 dsIH.2 "baby".toList :=
  c8_dump_load_same_search dsIH.1 dsIH.2 "baby".toList none rfl

/-! ## Claim C9 -/

theorem populateGo_ok (idx : Index) :
    ∀ (l : List (ℚ × Nat)) (h : Heap) (acc : List Nat),
      (∀ p ∈ l, (alookup idx.documents p.2).isSome = true) →
      ∃ dh : List Nat × Heap, populateGo idx h acc l = .ok dh := by
  intro l
  induction l with
  | nil => intro h acc _; exact ⟨(acc, h), rfl⟩
  | cons p rest ih =>
    intro h acc hmem
    obtain ⟨s, did⟩ := p
    have hsome : (alookup idx.documents did).isSome = true :=
      hmem (s, did) (List.mem_cons_self _ _)
    rcases hr : alookup idx.documents did with _ | r
    · rw [hr] at hsome; simp at hsome
    · simp only [populateGo, hr]
      exact ih _ _ (fun p hp => hmem p (List.mem_cons_of_mem _ hp))

/-- **C9** (confirmed).  The result list is produced by sorting the
`(score, document id)` pairs in descending lexicographic order
(`sort()` then `reverse()` in `populate`), so pairs with equal scores
come out in descending document-id order; and a query that parses to
no clauses returns every document of the index with score 0, in
descending document-id order. -/
theorem c9_ranking_order :
    (∀ l : List (ℚ × Nat),
       (pySortDesc l).Perm l ∧
       List.Sorted (fun a b => scoreLE b a) (pySortDesc l)) ∧
    (∀ (idx : Index) (h : Heap) (q : Chars), parseQuery q = [] →
       ∃ out : SearchOut, searchX idx h q = .ok out ∧
         out.document_scores =
           pySortDesc (idx.documents.map (fun kv => ((0 : ℚ), kv.1))) ∧
         (out.document_scores.map Prod.snd).Perm (idx.documents.map Prod.fst) ∧
         List.Sorted (· ≥ ·) (out.document_scores.map Prod.snd) ∧
         ∀ p ∈ out.document_scores, p.1 = 0) := by
  have hsort : ∀ l : List (ℚ × Nat),
      (pySortDesc l).Perm l ∧
      List.Sorted (fun a b => scoreLE b a) (pySortDesc l) := by
    intro l
    constructor
    · exact (List.reverse_perm _).trans (List.perm_insertionSort scoreLE l)
    · exact List.pairwise_reverse.mpr (List.sorted_insertionSort scoreLE l)
  refine ⟨hsort, ?_⟩
  intro idx h q hq
  have hmem0 : ∀ p ∈ pySortDesc (idx.documents.map (fun kv => ((0 : ℚ), kv.1))),
      p.1 = 0 ∧ p.2 ∈ idx.documents.map Prod.fst := by
    intro p hp
    have hp' : p ∈ idx.documents.map (fun kv => ((0 : ℚ), kv.1)) :=
      (hsort _).1.mem_iff.mp hp
    obtain ⟨kv, hkv, hkveq⟩ := List.mem_map.1 hp'
    refine ⟨by rw [← hkveq], ?_⟩
    rw [← hkveq]
    exact List.mem_map.2 ⟨kv, hkv, rfl⟩
  have hlk : ∀ p ∈ pySortDesc (idx.documents.map (fun kv => ((0 : ℚ), kv.1))),
      (alookup idx.documents p.2).isSome = true := by
    intro p hp
    exact (alookup_isSome_iff _ _).2 (hmem0 p hp).2
  obtain ⟨⟨docs, h'⟩, hpg⟩ := populateGo_ok idx _ h [] hlk
  refine ⟨⟨pySortDesc (idx.documents.map (fun kv => ((0 : ℚ), kv.1))), docs, h'⟩,
    ?_, rfl, ?_, ?_, fun p hp => (hmem0 p hp).1⟩
  · unfold searchX
    rw [hq]
    simp only [runParts]
    unfold populate
    rw [hpg]
  · have hperm := ((hsort (idx.documents.map (fun kv => ((0 : ℚ), kv.1)))).1).map Prod.snd
    refine hperm.trans ?_
    rw [List.map_map]
    exact List.Perm.refl _
  · have hs := (hsort (idx.documents.map (fun kv => ((0 : ℚ), kv.1)))).2
    rw [List.Sorted] at hs
    have himp : List.Pairwise (fun a b : ℚ × Nat => a.2 ≥ b.2)
        (pySortDesc (idx.documents.map (fun kv => ((0 : ℚ), kv.1)))) := by
      refine hs.imp_of_mem ?_
      intro a b ha hb hr
      have ha0 := (hmem0 a ha).1
      have hb0 := (hmem0 b hb).1
      unfold scoreLE at hr
      rcases hr with hlt | ⟨_, hle⟩
      · rw [ha0, hb0] at hlt; exact absurd hlt (lt_irrefl 0)
      · exact hle
    rw [List.Sorted, List.pairwise_map]
    exact himp

/-- Witness for C9 at the docstring index and the empty query, which
parses to no clauses. -/
theorem c9_ranking_order_witness :
    ∃ out : SearchOut, searchX dsIH.1 dsIH.2 [] = .ok out ∧
      out.document_scores =
        pySortDesc (dsIH.1.documents.map (fun kv => ((0 : ℚ), kv.1))) ∧
      (out.document_scores.map Prod.snd).Perm (dsIH.1.documents.map Prod.fst) ∧
      List.Sorted (· ≥ ·) (out.document_scores.map Prod.snd) ∧
      ∀ p ∈ out.document_scores, p.1 = 0 :=
  c9_ranking_order.2 dsIH.1 dsIH.2 [] (by decide)

/-! ## Lemmas about `Index.add` (used by claims C4, C5, C10) -/

theorem alookup_aupdate_same {α β : Type} [DecidableEq α]
    (l : List (α × β)) (k : α) (v : β) :
    alookup (aupdate l k v) k = some v := by
  induction l with
  | nil => simp [aupdate, alookup]
  | cons p rest ih =>
    obtain ⟨a, b⟩ := p
    by_cases h : a = k <;> simp [aupdate, alookup, h, ih]

theorem alookup_aupdate_other {α β : Type} [DecidableEq α]
    (l : List (α × β)) (k k' : α) (v : β) (hk : k' ≠ k) :
    alookup (aupdate l k v) k' = alookup l k' := by
  have hk2 : ¬ k = k' := fun h => hk h.symm
  induction l with
  | nil => simp [aupdate, alookup, hk2]
  | cons p rest ih =>
    obtain ⟨a, b⟩ := p
    by_cases h : a = k
    · subst h
      simp [aupdate, alookup, hk2]
    · simp [aupdate, alookup, h, ih]

theorem alookup_of_mem_nodup {α β : Type} [DecidableEq α]
    {l : List (α × β)} {k : α} {v : β}
    (hm : (k, v) ∈ l) (hnd : (l.map Prod.fst).Nodup) :
    alookup l k = some v := by
  induction l with
  | nil => cases hm
  | cons p rest ih =>
    obtain ⟨a, b⟩ := p
    rw [List.map_cons, List.nodup_cons] at hnd
    rcases List.mem_cons.1 hm with heq | hmem
    · cases heq
      simp [alookup]
    · have hka : ¬ a = k := by
        intro h
        subst h
        exact hnd.1 (List.mem_map.2 ⟨(a, v), hmem, rfl⟩)
      simp [alookup, hka, ih hmem hnd.2]

theorem alookup_append_of_not_mem {α β : Type} [DecidableEq α]
    {l1 : List (α × β)} (l2 : List (α × β)) {k : α}
    (hk : k ∉ l1.map Prod.fst) :
    alookup (l1 ++ l2) k = alookup l2 k := by
  induction l1 with
  | nil => rfl
  | cons p rest ih =>
    obtain ⟨a, b⟩ := p
    rw [List.map_cons, List.mem_cons] at hk
    push_neg at hk
    have : ¬ a = k := fun h => hk.1 h.symm
    simp [alookup, this, ih hk.2]

theorem hSet_length (h : Heap) (r : Nat) (d : Doc) :
    (hSet h r d).length = h.length := by
  simp [hSet]

theorem hGet_hSet_same {h : Heap} {r : Nat} (d : Doc) (hr : r < h.length) :
    hGet (hSet h r d) r = d := by
  simp [hGet, hSet, List.getD_eq_getElem?_getD, List.getElem?_set_self hr]

theorem hGet_hSet_other {h : Heap} {r r' : Nat} (d : Doc) (hne : r' ≠ r) :
    hGet (hSet h r d) r' = hGet h r' := by
  simp [hGet, hSet, List.getD_eq_getElem?_getD, List.getElem?_set_ne (fun h => hne h.symm)]

/-! Posting-presence lemmas: `postingsAdd` establishes the posting it
inserts and preserves every posting already present. -/

theorem tokLocAdd_hasDoc_same (d : TokLoc) (docId fieldId tokenId : Nat) :
    (alookup (tokLocAdd d docId fieldId tokenId) docId).isSome = true := by
  unfold tokLocAdd
  rcases h1 : alookup d docId with _ | fl
  · simp [h1, alookup_aupdate_same]
  · rcases h2 : alookup fl fieldId with _ | ps <;>
      simp [h1, h2, alookup_aupdate_same]

theorem tokLocAdd_hasDoc_mono {d : TokLoc} {docId : Nat}
    (docId' fieldId tokenId : Nat)
    (h : (alookup d docId).isSome = true) :
    (alookup (tokLocAdd d docId' fieldId tokenId) docId).isSome = true := by
  by_cases heq : docId = docId'
  · subst heq
    exact tokLocAdd_hasDoc_same d docId fieldId tokenId
  · unfold tokLocAdd
    rcases h1 : alookup d docId' with _ | fl
    · simp [alookup_aupdate_other _ _ _ _ heq, h]
    · rcases h2 : alookup fl fieldId with _ | ps <;>
        simp [h2, alookup_aupdate_other _ _ _ _ heq, h]

theorem postingsAdd_has (ts : Postings) (tok : Chars) (docId fieldId tokenId : Nat) :
    hasPostingB (postingsAdd ts tok docId fieldId tokenId) tok docId = true := by
  unfold postingsAdd hasPostingB
  rcases h1 : alookup ts tok with _ | d
  · simp [alookup_aupdate_same, alookup]
  · simp [alookup_aupdate_same, tokLocAdd_hasDoc_same]

theorem postingsAdd_mono {ts : Postings} {tok : Chars} {docId : Nat}
    (tok' : Chars) (docId' fieldId' tokenId' : Nat)
    (h : hasPostingB ts tok docId = true) :
    hasPostingB (postingsAdd ts tok' docId' fieldId' tokenId') tok docId = true := by
  unfold hasPostingB at h
  rcases h1 : alookup ts tok with _ | d
  · rw [h1] at h; cases h
  · rw [h1] at h
    by_cases heq : tok = tok'
    · subst heq
      unfold postingsAdd hasPostingB
      rw [h1]
      rw [alookup_aupdate_same]
      exact tokLocAdd_hasDoc_mono docId' fieldId' tokenId' h
    · unfold postingsAdd hasPostingB
      rcases h2 : alookup ts tok' with _ | d'
      · rw [alookup_aupdate_other _ _ _ _ heq, h1]
        exact h
      · rw [alookup_aupdate_other _ _ _ _ heq, h1]
        exact h

theorem addTokensFrom_mono :
    ∀ (toks : List Chars) (ts : Postings) (tok : Chars) (docId docId' fieldId' tokenId' : Nat),
      hasPostingB ts tok docId = true →
      hasPostingB (addTokensFrom docId' fieldId' tokenId' ts toks) tok docId = true := by
  intro toks
  induction toks with
  | nil => intro ts tok docId d' f' t' h; exact h
  | cons t rest ih =>
    intro ts tok docId d' f' t' h
    exact ih _ _ _ _ _ _ (postingsAdd_mono t d' f' t' h)

theorem addTokensFrom_adds :
    ∀ (toks : List Chars) (ts : Postings) (tok : Chars) (docId fieldId tokenId : Nat),
      tok ∈ toks →
      hasPostingB (addTokensFrom docId fieldId tokenId ts toks) tok docId = true := by
  intro toks
  induction toks with
  | nil => intro _ _ _ _ _ hm; cases hm
  | cons t rest ih =>
    intro ts tok docId f tid hm
    rcases List.mem_cons.1 hm with rfl | hm'
    · exact addTokensFrom_mono rest _ _ _ _ _ _ (postingsAdd_has ts tok docId f tid)
    · exact ih _ _ _ _ _ hm'

theorem addOccsFrom_mono :
    ∀ (occs : List Chars) (tz : Tkzr) (ts : Postings) (tok : Chars)
      (docId docId' fieldId' : Nat),
      hasPostingB ts tok docId = true →
      hasPostingB (addOccsFrom tz docId' fieldId' ts occs) tok docId = true := by
  intro occs
  induction occs with
  | nil => intro _ _ _ _ _ _ h; exact h
  | cons v rest ih =>
    intro tz ts tok docId d' f' h
    exact ih _ _ _ _ _ _ (addTokensFrom_mono _ _ _ _ _ _ _ h)

theorem addOccsFrom_adds :
    ∀ (occs : List Chars) (tz : Tkzr) (ts : Postings) (v tok : Chars)
      (docId fieldId : Nat),
      v ∈ occs → tok ∈ tkTokenize tz v →
      hasPostingB (addOccsFrom tz docId fieldId ts occs) tok docId = true := by
  intro occs
  induction occs with
  | nil => intro _ _ _ _ _ _ hm; cases hm
  | cons v0 rest ih =>
    intro tz ts v tok docId fid hm htok
    rcases List.mem_cons.1 hm with rfl | hm'
    · exact addOccsFrom_mono rest tz _ tok docId docId (fid + 1)
        (addTokensFrom_adds _ _ _ _ _ _ htok)
    · exact ih _ _ _ _ _ _ hm' htok

theorem fieldAdd_index (f : Field) (v : FVal) (d : Nat) :
    (Field.add f v d).index = f.index := rfl

theorem fieldAdd_store (f : Field) (v : FVal) (d : Nat) :
    (Field.add f v d).store = f.store := rfl

theorem fieldAdd_copy_to (f : Field) (v : FVal) (d : Nat) :
    (Field.add f v d).copy_to = f.copy_to := rfl

theorem fieldAdd_tokenizer (f : Field) (v : FVal) (d : Nat) :
    (Field.add f v d).tokenizer = f.tokenizer := rfl

theorem fieldAdd_mono {f : Field} {tok : Chars} {docId : Nat}
    (v : FVal) (docId' : Nat)
    (h : hasPostingB f.tokens tok docId = true) :
    hasPostingB (Field.add f v docId').tokens tok docId = true :=
  addOccsFrom_mono _ _ _ _ _ _ _ h

theorem fieldAdd_adds {f : Field} {v : FVal} {tok : Chars} {docId : Nat}
    (h : tok ∈ (fvalOccs v).flatMap (tkTokenize f.tokenizer)) :
    hasPostingB (Field.add f v docId).tokens tok docId = true := by
  obtain ⟨occ, hocc, htok⟩ := List.mem_flatMap.1 h
  exact addOccsFrom_adds _ _ _ _ _ _ _ hocc htok

/-! Evolution lemmas: one `stepField` call only appends postings to
`Field` objects, never changes flags, the document list or the
counter. -/

theorem fieldEvolves_refl (f : Field) : fieldEvolves f f :=
  ⟨rfl, rfl, rfl, rfl, rfl, rfl, fun _ _ h => h⟩

theorem fieldEvolves_trans {a b c : Field}
    (h1 : fieldEvolves a b) (h2 : fieldEvolves b c) : fieldEvolves a c := by
  obtain ⟨x1, x2, x3, x4, x5, x6, x7⟩ := h1
  obtain ⟨y1, y2, y3, y4, y5, y6, y7⟩ := h2
  exact ⟨y1.trans x1, y2.trans x2, y3.trans x3, y4.trans x4, y5.trans x5,
    y6.trans x6, fun tok d hh => y7 tok d (x7 tok d hh)⟩

theorem fieldEvolves_add (f : Field) (v : FVal) (d : Nat) :
    fieldEvolves f (Field.add f v d) :=
  ⟨rfl, rfl, rfl, rfl, rfl, rfl, fun _ _ hh => fieldAdd_mono v d hh⟩

theorem idxEvolves_refl (idx : Index) : idxEvolves idx idx :=
  fun _ f0 h => ⟨f0, h, fieldEvolves_refl f0⟩

theorem idxEvolves_trans {a b c : Index}
    (hab : idxEvolves a b) (hbc : idxEvolves b c) : idxEvolves a c := by
  intro g f0 h
  obtain ⟨f1, h1, he1⟩ := hab g f0 h
  obtain ⟨f2, h2, he2⟩ := hbc g f1 h1
  exact ⟨f2, h2, fieldEvolves_trans he1 he2⟩

theorem idxEvolves_updateField_add {idx : Index} {fname : String} {fld : Field}
    (v : FVal) (nid : Nat) (hl : alookup idx.fields fname = some fld) :
    idxEvolves idx (updateField idx fname (Field.add fld v nid)) := by
  intro g f0 hg
  by_cases hgf : g = fname
  · subst hgf
    rw [hg] at hl
    injection hl with hl
    subst hl
    exact ⟨Field.add f0 v nid, by simp [updateField, alookup_aupdate_same],
      fieldEvolves_add f0 v nid⟩
  · exact ⟨f0, by simp [updateField, alookup_aupdate_other _ _ _ _ hgf, hg],
      fieldEvolves_refl f0⟩

theorem lookupField_ok_iff {idx : Index} {name : String} {fld : Field} :
    lookupField idx name = .ok fld ↔ alookup idx.fields name = some fld := by
  unfold lookupField
  rcases h : alookup idx.fields name with _ | f <;> simp

theorem stepIndexPart_evolves {idx : Index} {fname : String} {ifld : Field}
    {fval : Option FVal} {nid : Nat} {idx2 : Index}
    (hl : alookup idx.fields fname = some ifld)
    (h : stepIndexPart idx fname ifld fval nid = .ok idx2) :
    idxEvolves idx idx2 := by
  unfold stepIndexPart at h
  by_cases hi : ifld.index = true
  · rw [if_pos hi] at h
    rcases fval with _ | v
    · exact absurd h (by simp)
    · injection h with h2
      subst h2
      exact idxEvolves_updateField_add v nid hl
  · rw [if_neg hi] at h
    injection h with h2
    subst h2
    exact idxEvolves_refl idx

theorem stepCopyPart_evolves {idx2 : Index} {ifld : Field} {fval : Option FVal}
    {nid : Nat} {idx3 : Index}
    (h : stepCopyPart idx2 ifld fval nid = .ok idx3) :
    idxEvolves idx2 idx3 := by
  unfold stepCopyPart at h
  rcases hc : ifld.copy_to with _ | t <;> rw [hc] at h <;> simp only [] at h
  · injection h with h2
    subst h2
    exact idxEvolves_refl _
  · by_cases ht : t = ""
    · rw [if_pos ht] at h
      injection h with h2
      subst h2
      exact idxEvolves_refl _
    · rw [if_neg ht] at h
      rcases hlt : lookupField idx2 t with e | cfld <;> rw [hlt] at h <;>
        simp only [] at h
      · exact absurd h (by simp)
      · by_cases hci : cfld.index = true
        · rw [if_pos hci] at h
          rcases fval with _ | v
          · exact absurd h (by simp)
          · injection h with h2
            subst h2
            exact idxEvolves_updateField_add v nid (lookupField_ok_iff.1 hlt)
        · rw [if_neg hci] at h
          injection h with h2
          subst h2
          exact idxEvolves_refl _

theorem updateField_documents (idx : Index) (n : String) (f : Field) :
    (updateField idx n f).documents = idx.documents := rfl

theorem stepIndexPart_const {idx : Index} {fname : String} {ifld : Field}
    {fval : Option FVal} {nid : Nat} {idx2 : Index}
    (h : stepIndexPart idx fname ifld fval nid = .ok idx2) :
    idx2.documents = idx.documents ∧ idx2.doc_counter = idx.doc_counter ∧
      idx2.weighted_fields = idx.weighted_fields := by
  unfold stepIndexPart at h
  by_cases hi : ifld.index = true
  · rw [if_pos hi] at h
    rcases fval with _ | v
    · exact absurd h (by simp)
    · injection h with h2
      subst h2
      exact ⟨rfl, rfl, rfl⟩
  · rw [if_neg hi] at h
    injection h with h2
    subst h2
    exact ⟨rfl, rfl, rfl⟩

theorem stepCopyPart_const {idx2 : Index} {ifld : Field} {fval : Option FVal}
    {nid : Nat} {idx3 : Index}
    (h : stepCopyPart idx2 ifld fval nid = .ok idx3) :
    idx3.documents = idx2.documents ∧ idx3.doc_counter = idx2.doc_counter ∧
      idx3.weighted_fields = idx2.weighted_fields := by
  unfold stepCopyPart at h
  rcases hc : ifld.copy_to with _ | t <;> rw [hc] at h <;> simp only [] at h
  · injection h with h2; subst h2; exact ⟨rfl, rfl, rfl⟩
  · by_cases ht : t = ""
    · rw [if_pos ht] at h
      injection h with h2; subst h2; exact ⟨rfl, rfl, rfl⟩
    · rw [if_neg ht] at h
      rcases hlt : lookupField idx2 t with e | cfld <;> rw [hlt] at h <;>
        simp only [] at h
      · exact absurd h (by simp)
      · by_cases hci : cfld.index = true
        · rw [if_pos hci] at h
          rcases fval with _ | v
          · exact absurd h (by simp)
          · injection h with h2; subst h2; exact ⟨rfl, rfl, rfl⟩
        · rw [if_neg hci] at h
          injection h with h2; subst h2; exact ⟨rfl, rfl, rfl⟩

/-- Inversion of a successful `stepField` into its stages. -/
theorem stepField_ok_cases {idx : Index} {h : Heap} {r nid : Nat}
    {fname : String} {idx' : Index} {h2 : Heap}
    (hs : stepField idx h r nid fname = .ok (idx', h2)) :
    ∃ ifld idx2 sfld,
      alookup idx.fields fname = some ifld ∧
      stepIndexPart idx fname ifld (docGet (hGet h r) fname) nid = .ok idx2 ∧
      stepCopyPart idx2 ifld (docGet (hGet h r) fname) nid = .ok idx' ∧
      alookup idx'.fields fname = some sfld ∧
      ((sfld.store = true ∧ h2 = h) ∨
       (sfld.store = false ∧ h2 = hSet h r (docSet (hGet h r) fname none))) := by
  unfold stepField at hs
  rcases h1 : lookupField idx fname with e | ifld <;> rw [h1] at hs <;>
    simp only [] at hs
  · exact absurd hs (by simp)
  · rcases h2p : stepIndexPart idx fname ifld (docGet (hGet h r) fname) nid
      with e | idx2 <;> rw [h2p] at hs <;> simp only [] at hs
    · exact absurd hs (by simp)
    · rcases h3 : stepCopyPart idx2 ifld (docGet (hGet h r) fname) nid
        with e | idx3 <;> rw [h3] at hs <;> simp only [] at hs
      · exact absurd hs (by simp)
      · rcases h4 : lookupField idx3 fname with e | sfld <;> rw [h4] at hs <;>
          simp only [] at hs
        · exact absurd hs (by simp)
        · by_cases hst : sfld.store = true
          · rw [if_pos hst] at hs
            injection hs with hs
            injection hs with hsa hsb
            subst hsa; subst hsb
            exact ⟨ifld, idx2, sfld, lookupField_ok_iff.1 h1, h2p, h3,
              lookupField_ok_iff.1 h4, Or.inl ⟨hst, rfl⟩⟩
          · rw [if_neg hst] at hs
            injection hs with hs
            injection hs with hsa hsb
            subst hsa; subst hsb
            exact ⟨ifld, idx2, sfld, lookupField_ok_iff.1 h1, h2p, h3,
              lookupField_ok_iff.1 h4, Or.inr ⟨Bool.eq_false_iff.2 hst, rfl⟩⟩

theorem stepField_evolves {idx : Index} {h : Heap} {r nid : Nat}
    {fname : String} {idx' : Index} {h2 : Heap}
    (hs : stepField idx h r nid fname = .ok (idx', h2)) :
    idxEvolves idx idx' := by
  obtain ⟨ifld, idx2, sfld, hl, hip, hcp, _, _⟩ := stepField_ok_cases hs
  exact idxEvolves_trans (stepIndexPart_evolves hl hip) (stepCopyPart_evolves hcp)

theorem stepField_const {idx : Index} {h : Heap} {r nid : Nat}
    {fname : String} {idx' : Index} {h2 : Heap}
    (hs : stepField idx h r nid fname = .ok (idx', h2)) :
    idx'.documents = idx.documents ∧ idx'.doc_counter = idx.doc_counter ∧
      idx'.weighted_fields = idx.weighted_fields := by
  obtain ⟨ifld, idx2, sfld, hl, hip, hcp, _, _⟩ := stepField_ok_cases hs
  obtain ⟨a1, a2, a3⟩ := stepIndexPart_const hip
  obtain ⟨b1, b2, b3⟩ := stepCopyPart_const hcp
  exact ⟨b1.trans a1, b2.trans a2, b3.trans a3⟩

theorem stepField_heap {idx : Index} {h : Heap} {r nid : Nat}
    {fname : String} {idx' : Index} {h2 : Heap} (hr : r < h.length)
    (hs : stepField idx h r nid fname = .ok (idx', h2)) :
    h2.length = h.length ∧ (hGet h2 r).id = (hGet h r).id ∧
      (hGet h2 r).score = (hGet h r).score ∧
      ∀ g, g ≠ fname →
        alookup (hGet h2 r).fields g = alookup (hGet h r).fields g := by
  obtain ⟨ifld, idx2, sfld, _, _, _, _, hdisj⟩ := stepField_ok_cases hs
  rcases hdisj with ⟨_, rfl⟩ | ⟨_, rfl⟩
  · exact ⟨rfl, rfl, rfl, fun _ _ => rfl⟩
  · refine ⟨hSet_length h r _, ?_, ?_, ?_⟩
    · rw [hGet_hSet_same _ hr]; rfl
    · rw [hGet_hSet_same _ hr]; rfl
    · intro g hg
      rw [hGet_hSet_same _ hr]
      exact alookup_aupdate_other _ _ _ _ hg

theorem stepField_wipes {idx : Index} {h : Heap} {r nid : Nat}
    {fname : String} {fld : Field} {idx' : Index} {h2 : Heap}
    (hr : r < h.length)
    (hl : alookup idx.fields fname = some fld) (hstore : fld.store = false)
    (hs : stepField idx h r nid fname = .ok (idx', h2)) :
    alookup (hGet h2 r).fields fname = some none := by
  obtain ⟨ifld, idx2, sfld, hl', hip, hcp, hl3, hdisj⟩ := stepField_ok_cases hs
  rw [hl] at hl'
  injection hl' with hl'
  subst hl'
  have hev := idxEvolves_trans (stepIndexPart_evolves hl hip)
    (stepCopyPart_evolves hcp)
  obtain ⟨f', hlf', hef'⟩ := hev fname fld hl
  rw [hl3] at hlf'
  injection hlf' with hlf'
  subst hlf'
  have hsf : sfld.store = false := hef'.2.2.1.trans hstore
  rcases hdisj with ⟨hT, _⟩ | ⟨_, rfl⟩
  · rw [hT] at hsf; cases hsf
  · rw [hGet_hSet_same _ hr]
    exact alookup_aupdate_same _ _ _

theorem stepField_target_postings {idx : Index} {h : Heap} {r nid : Nat}
    {fname : String} {fld : Field} {v : FVal} {idx' : Index} {h2 : Heap}
    (hl : alookup idx.fields fname = some fld) (hidx : fld.index = true)
    (hv : docGet (hGet h r) fname = some v)
    (hs : stepField idx h r nid fname = .ok (idx', h2)) :
    ∃ fld', alookup idx'.fields fname = some fld' ∧
      ∀ tok ∈ (fvalOccs v).flatMap (tkTokenize fld.tokenizer),
        hasPostingB fld'.tokens tok nid = true := by
  obtain ⟨ifld, idx2, sfld, hl', hip, hcp, _, _⟩ := stepField_ok_cases hs
  rw [hl] at hl'
  injection hl' with hl'
  subst hl'
  unfold stepIndexPart at hip
  rw [if_pos hidx, hv] at hip
  injection hip with hip
  subst hip
  have hl2 : alookup (updateField idx fname (Field.add fld v nid)).fields fname =
      some (Field.add fld v nid) := by
    simp [updateField, alookup_aupdate_same]
  obtain ⟨f', hlf', hef'⟩ := stepCopyPart_evolves hcp fname _ hl2
  refine ⟨f', hlf', ?_⟩
  intro tok htok
  exact hef'.2.2.2.2.2.2 tok nid (fieldAdd_adds htok)

theorem processFields_effects :
    ∀ (names : List String) (idx : Index) (h : Heap) {r nid : Nat}
      {idx' : Index} {h' : Heap},
      r < h.length →
      processFields idx h r nid names = .ok (idx', h') →
      idxEvolves idx idx' ∧ h'.length = h.length ∧
      (hGet h' r).id = (hGet h r).id ∧
      (∀ g, g ∉ names →
        alookup (hGet h' r).fields g = alookup (hGet h r).fields g) ∧
      idx'.documents = idx.documents ∧ idx'.doc_counter = idx.doc_counter := by
  intro names
  induction names with
  | nil =>
    intro idx h r nid idx' h' _ hp
    unfold processFields at hp
    injection hp with hp
    injection hp with ha hb
    subst ha; subst hb
    exact ⟨idxEvolves_refl _, rfl, rfl, fun _ _ => rfl, rfl, rfl⟩
  | cons g rest ih =>
    intro idx h r nid idx' h' hr hp
    unfold processFields at hp
    rcases h1 : stepField idx h r nid g with e | ⟨idx2, h2⟩ <;> rw [h1] at hp <;>
      simp only [] at hp
    · exact absurd hp (by simp)
    · have hr2 : r < h2.length := by
        rw [(stepField_heap hr h1).1]; exact hr
      obtain ⟨e1, e2, e3, e4, e5, e6⟩ := ih idx2 h2 hr2 hp
      obtain ⟨s1, s2, s3, s4⟩ := stepField_heap hr h1
      obtain ⟨c1, c2, _⟩ := stepField_const h1
      refine ⟨idxEvolves_trans (stepField_evolves h1) e1, e2.trans s1,
        e3.trans s2, ?_, e5.trans c1, e6.trans c2⟩
      intro g' hg'
      rw [List.mem_cons] at hg'
      push_neg at hg'
      rw [e4 g' hg'.2, s4 g' hg'.1]

theorem processFields_wipes :
    ∀ (names : List String) (idx : Index) (h : Heap) {r nid : Nat}
      {idx' : Index} {h' : Heap},
      r < h.length → names.Nodup →
      processFields idx h r nid names = .ok (idx', h') →
      ∀ (f : String) (fld : Field), f ∈ names →
        alookup idx.fields f = some fld → fld.store = false →
        alookup (hGet h' r).fields f = some none := by
  intro names
  induction names with
  | nil =>
    intro idx h r nid idx' h' _ _ _ f fld hf
    cases hf
  | cons g rest ih =>
    intro idx h r nid idx' h' hr hnd hp f fld hf hl hst
    unfold processFields at hp
    rcases h1 : stepField idx h r nid g with e | ⟨idx2, h2⟩ <;> rw [h1] at hp <;>
      simp only [] at hp
    · exact absurd hp (by simp)
    · have hr2 : r < h2.length := by
        rw [(stepField_heap hr h1).1]; exact hr
      rcases List.mem_cons.1 hf with rfl | hf'
      · have hw := stepField_wipes hr hl hst h1
        have hnotin : f ∉ rest := (List.nodup_cons.1 hnd).1
        have hpr := (processFields_effects rest idx2 h2 hr2 hp).2.2.2.1 f hnotin
        rw [hpr, hw]
      · obtain ⟨fld2, hl2, hef⟩ := stepField_evolves h1 f fld hl
        have hst2 : fld2.store = false := hef.2.2.1.trans hst
        exact ih idx2 h2 hr2 (List.nodup_cons.1 hnd).2 hp f fld2 hf' hl2 hst2

theorem processFields_target :
    ∀ (names : List String) (idx : Index) (h : Heap) {r nid : Nat}
      {idx' : Index} {h' : Heap},
      r < h.length → names.Nodup →
      processFields idx h r nid names = .ok (idx', h') →
      ∀ (f : String) (fld : Field) (v : FVal), f ∈ names →
        alookup idx.fields f = some fld → fld.index = true →
        docGet (hGet h r) f = some v →
        ∃ fld', alookup idx'.fields f = some fld' ∧
          ∀ tok ∈ (fvalOccs v).flatMap (tkTokenize fld.tokenizer),
            hasPostingB fld'.tokens tok nid = true := by
  intro names
  induction names with
  | nil =>
    intro idx h r nid idx' h' _ _ _ f fld v hf
    cases hf
  | cons g rest ih =>
    intro idx h r nid idx' h' hr hnd hp f fld v hf hl hidx hv
    unfold processFields at hp
    rcases h1 : stepField idx h r nid g with e | ⟨idx2, h2⟩ <;> rw [h1] at hp <;>
      simp only [] at hp
    · exact absurd hp (by simp)
    · have hr2 : r < h2.length := by
        rw [(stepField_heap hr h1).1]; exact hr
      rcases List.mem_cons.1 hf with rfl | hf'
      · obtain ⟨fldm, hlm, hpost⟩ := stepField_target_postings hl hidx hv h1
        obtain ⟨fld', hl', hef⟩ :=
          (processFields_effects rest idx2 h2 hr2 hp).1 f fldm hlm
        exact ⟨fld', hl',
          fun tok htok => hef.2.2.2.2.2.2 tok nid (hpost tok htok)⟩
      · have hne : f ≠ g := by
          rintro rfl
          exact (List.nodup_cons.1 hnd).1 hf'
        obtain ⟨fld2, hl2, hef⟩ := stepField_evolves h1 f fld hl
        have hidx2 : fld2.index = true := hef.2.1.trans hidx
        have htz : fld2.tokenizer = fld.tokenizer := hef.2.2.2.2.2.1
        have hv2 : docGet (hGet h2 r) f = some v := by
          unfold docGet at hv ⊢
          rw [(stepField_heap hr h1).2.2.2 f hne]
          exact hv
        obtain ⟨fld', hl', hpost⟩ :=
          ih idx2 h2 hr2 (List.nodup_cons.1 hnd).2 hp f fld2 v hf' hl2 hidx2 hv2
        rw [htz] at hpost
        exact ⟨fld', hl', hpost⟩

/-! ## Claim C5 -/

/-- **C5, counterexample.**  The claim quantifies over *every* field
declared `store=False`: for a field that is also `index=False`
(`Field('c', index=False, store=False)`), the value is discarded from
the document but its tokens are *not* searchable — the field's posting
map stays empty, so the token `hello` has no posting. -/
theorem c5_counterexample :
    isErr (indexAdd c5Index [c5Doc] 0) = false ∧
    alookup (hGet c5Result.2 0).fields "c" = some none ∧
    (alookup c5Result.1.fields "c").map Field.tokens = some ([] : Postings) ∧
    hasPostingB ((alookup c5Result.1.fields "c").elim [] Field.tokens)
      "hello".toList 0 = false :=
  ⟨by decide, by decide, by decide, by decide⟩

/-- **C5** (corrected).  For every field declared `store=False` that is
also *indexed*, and every document added with a value for that field:
after `Index.add` the caller-visible value of the field is `None`
(discarded), while every token of the value has a posting for the new
document id in the field's postings (so the content stays searchable
at the postings layer). -/
theorem c5_not_stored_value_discarded :
    ∀ (idx : Index) (h : Heap) (r : Nat) (d : Doc) (f : String) (fld : Field)
      (v : FVal) (idx' : Index) (h' : Heap),
      r < h.length → hGet h r = d →
      (d.fields.map Prod.fst).Nodup →
      (f, some v) ∈ d.fields →
      alookup idx.fields f = some fld →
      fld.store = false → fld.index = true →
      indexAdd idx h r = .ok (idx', h') →
      alookup (hGet h' r).fields f = some none ∧
      ∃ fld', alookup idx'.fields f = some fld' ∧
        ∀ tok ∈ (fvalOccs v).flatMap (tkTokenize fld.tokenizer),
          hasPostingB fld'.tokens tok idx.doc_counter = true := by
  intro idx h r d f fld v idx' h' hr hd hnd hmem hl hst hix hadd
  unfold indexAdd at hadd
  have hr1 : r < (hSet h r { hGet h r with id := some idx.doc_counter }).length := by
    rw [hSet_length]; exact hr
  have hg1 : hGet (hSet h r { hGet h r with id := some idx.doc_counter }) r =
      { d with id := some idx.doc_counter } := by
    rw [hGet_hSet_same _ hr, hd]
  rw [hg1] at hadd
  have hfmem : f ∈ d.fields.map Prod.fst := List.mem_map.2 ⟨(f, some v), hmem, rfl⟩
  have hdg : docGet (hGet (hSet h r { hGet h r with id := some idx.doc_counter }) r)
      f = some v := by
    rw [hg1]
    unfold docGet
    have hlk : alookup d.fields f = some (some v) := alookup_of_mem_nodup hmem hnd
    show (alookup d.fields f).getD none = some v
    rw [hlk]
    rfl
  constructor
  · exact processFields_wipes _ _ _ hr1 hnd hadd f fld hfmem hl hst
  · exact processFields_target _ _ _ hr1 hnd hadd f fld v hfmem hl hix hdg

/-- Witness for C5 (amended) at the `contents` field of
src/artsearch.py (`store=False`, indexed). -/
theorem c5_not_stored_value_discarded_witness :
    alookup (hGet c5bResult.2 0).fields "contents" = some none ∧
    ∃ fld', alookup c5bResult.1.fields "contents" = some fld' ∧
      ∀ tok ∈ (fvalOccs (.str "hello world".toList)).flatMap
          (tkTokenize (Tkzr.words true)),
        hasPostingB fld'.tokens tok c5bIndex.doc_counter = true :=
  c5_not_stored_value_discarded c5bIndex [c5bDoc] 0 c5bDoc "contents"
    ⟨"contents", true, false, none, qlit 1 10 (by norm_num) (by norm_num),
      .words true, []⟩
    (.str "hello world".toList) c5bResult.1 c5bResult.2
    (by decide) (by decide) (by decide) (by decide) (by decide) (by decide)
    (by decide) (by decide)

/-! ## Claim C4 -/

theorem stepIndexPart_of_true {idx : Index} {fname : String} {ifld : Field}
    (v : FVal) (nid : Nat) (hfi : ifld.index = true) :
    stepIndexPart idx fname ifld (some v) nid =
      .ok (updateField idx fname (Field.add ifld v nid)) := by
  simp [stepIndexPart, hfi]

theorem stepIndexPart_of_false {idx : Index} {fname : String} {ifld : Field}
    {fval : Option FVal} {nid : Nat} (hfi : ifld.index = false) :
    stepIndexPart idx fname ifld fval nid = .ok idx := by
  simp [stepIndexPart, hfi]

theorem stepCopyPart_skip {idx2 : Index} {ifld : Field} {fval : Option FVal}
    {nid : Nat} {t : String} {tfld : Field}
    (hct : ifld.copy_to = some t) (htne : t ≠ "")
    (hlt : alookup idx2.fields t = some tfld) (hti : tfld.index = false) :
    stepCopyPart idx2 ifld fval nid = .ok idx2 := by
  unfold stepCopyPart
  rw [hct]
  simp only []
  rw [if_neg htne, lookupField_ok_iff.2 hlt]
  simp only []
  simp [hti]

theorem stepCopyPart_missing {idx2 : Index} {ifld : Field} {fval : Option FVal}
    {nid : Nat} {t : String}
    (hct : ifld.copy_to = some t) (htne : t ≠ "")
    (hlt : alookup idx2.fields t = none) :
    stepCopyPart idx2 ifld fval nid =
      .error (.indexException "Field not defined.") := by
  unfold stepCopyPart
  rw [hct]
  simp only []
  rw [if_neg htne]
  have hlk : lookupField idx2 t = .error (.indexException "Field not defined.") := by
    unfold lookupField
    rw [hlt]
  rw [hlk]

theorem stepField_eq {idx : Index} {h : Heap} {r nid : Nat} {fname : String}
    {ifld : Field} {idx2 idx3 : Index} {sfld : Field}
    (h1 : alookup idx.fields fname = some ifld)
    (h2 : stepIndexPart idx fname ifld (docGet (hGet h r) fname) nid = .ok idx2)
    (h3 : stepCopyPart idx2 ifld (docGet (hGet h r) fname) nid = .ok idx3)
    (h4 : alookup idx3.fields fname = some sfld) :
    stepField idx h r nid fname =
      .ok (idx3, if sfld.store then h
                 else hSet h r (docSet (hGet h r) fname none)) := by
  unfold stepField
  rw [lookupField_ok_iff.2 h1]
  simp only []
  rw [h2]
  simp only []
  rw [h3]
  simp only []
  rw [lookupField_ok_iff.2 h4]
  simp only []
  by_cases hst : sfld.store = true <;> simp [hst]

theorem stepField_err_copy {idx : Index} {h : Heap} {r nid : Nat}
    {fname : String} {ifld : Field} {idx2 : Index} {e : PyErr}
    (h1 : alookup idx.fields fname = some ifld)
    (h2 : stepIndexPart idx fname ifld (docGet (hGet h r) fname) nid = .ok idx2)
    (h3 : stepCopyPart idx2 ifld (docGet (hGet h r) fname) nid = .error e) :
    stepField idx h r nid fname = .error e := by
  unfold stepField
  rw [lookupField_ok_iff.2 h1]
  simp only []
  rw [h2]
  simp only []
  rw [h3]

theorem processFields_single {idx : Index} {h : Heap} {r nid : Nat}
    {f : String} :
    processFields idx h r nid [f] = stepField idx h r nid f := by
  unfold processFields
  rcases hs : stepField idx h r nid f with e | ⟨i2, h2⟩
  · rfl
  · rfl

/-- **C4, counterexample.**  With a schema whose only field `a` has
`copy_to='b'` and no field `b`, adding a document with a value for `a`
does not silently skip the copy: `Index.add` raises `IndexException`
("Field 'b' not defined," from `IndexFieldDict.__getitem__` at line
396) instead of completing. -/
theorem c4_counterexample :
    (alookup c4Index.fields "a").map Field.copy_to = some (some "b") ∧
    alookup c4Index.fields "b" = none ∧
    indexAdd c4Index [c4Doc] 0 = .error (.indexException "Field not defined.") :=
  ⟨by decide, by decide, by decide⟩

/-- **C4** (corrected).  For a document carrying one field `f` whose
schema entry aliases `copy_to = t` (`t` nonempty): when `t` exists in
the schema but is not indexed, `Index.add` completes and the copy is
silently skipped (the target `Field` object is unchanged); when `t`
does not exist in the schema, `Index.add` raises (it does **not**
silently skip). -/
theorem c4_copy_to_alias_behavior :
    ∀ (idx : Index) (h : Heap) (r : Nat) (f t : String) (fld : Field)
      (v : FVal) (i0 : Option Nat) (s0 : Option ℚ),
      r < h.length →
      hGet h r = ⟨[(f, some v)], i0, s0⟩ →
      alookup idx.fields f = some fld →
      fld.copy_to = some t → t ≠ "" →
      ((∀ tfld : Field, alookup idx.fields t = some tfld → tfld.index = false →
          ∃ idx' h', indexAdd idx h r = .ok (idx', h') ∧
            alookup idx'.fields t = some tfld) ∧
       (alookup idx.fields t = none → isErr (indexAdd idx h r) = true)) := by
  intro idx h r f t fld v i0 s0 hr hd hl hct htne
  have hg1 : hGet (hSet h r { hGet h r with id := some idx.doc_counter }) r =
      ⟨[(f, some v)], some idx.doc_counter, s0⟩ := by
    rw [hGet_hSet_same _ hr, hd]
  have hdg : docGet
      (hGet (hSet h r { hGet h r with id := some idx.doc_counter }) r) f =
      some v := by
    rw [hg1]
    unfold docGet
    simp [alookup]
  have hnames :
      (hGet (hSet h r { hGet h r with id := some idx.doc_counter }) r).fields.map
        Prod.fst = [f] := by
    rw [hg1]
    rfl
  have hl1 : alookup ({ idx with
      doc_counter := idx.doc_counter + 1,
      documents := idx.documents ++ [(idx.doc_counter, r)] } : Index).fields f =
      some fld := hl
  constructor
  · intro tfld hlt hti
    by_cases htf : t = f
    · subst htf
      rw [hl] at hlt
      injection hlt with he
      subst he
      exact ⟨_, _, by
        unfold indexAdd
        rw [hnames, processFields_single]
        exact stepField_eq hl1 (by rw [hdg]; exact stepIndexPart_of_false hti)
          (by rw [hdg]; exact stepCopyPart_skip hct htne hl1 hti) hl1, hl1⟩
    · have hlt1 : alookup ({ idx with
          doc_counter := idx.doc_counter + 1,
          documents := idx.documents ++ [(idx.doc_counter, r)] }
            : Index).fields t = some tfld := hlt
      by_cases hfi : fld.index = true
      · have hlt2 : alookup (updateField
            { idx with doc_counter := idx.doc_counter + 1,
                       documents := idx.documents ++ [(idx.doc_counter, r)] }
            f (Field.add fld v idx.doc_counter)).fields t = some tfld := by
          unfold updateField
          show alookup (aupdate idx.fields f (Field.add fld v idx.doc_counter))
            t = some tfld
          rw [alookup_aupdate_other _ _ _ _ htf]
          exact hlt
        have hlf3 : alookup (updateField
            { idx with doc_counter := idx.doc_counter + 1,
                       documents := idx.documents ++ [(idx.doc_counter, r)] }
            f (Field.add fld v idx.doc_counter)).fields f =
            some (Field.add fld v idx.doc_counter) := by
          unfold updateField
          show alookup (aupdate idx.fields f (Field.add fld v idx.doc_counter))
            f = some (Field.add fld v idx.doc_counter)
          exact alookup_aupdate_same _ _ _
        exact ⟨_, _, by
          unfold indexAdd
          rw [hnames, processFields_single]
          exact stepField_eq hl1
            (by rw [hdg]; exact stepIndexPart_of_true v _ hfi)
            (by rw [hdg]; exact stepCopyPart_skip hct htne hlt2 hti) hlf3, hlt2⟩
      · have hfi' : fld.index = false := Bool.eq_false_iff.2 hfi
        exact ⟨_, _, by
          unfold indexAdd
          rw [hnames, processFields_single]
          exact stepField_eq hl1
            (by
              rw [hdg]
              exact @stepIndexPart_of_false _ f fld (some v) idx.doc_counter hfi')
            (by rw [hdg]; exact stepCopyPart_skip hct htne hlt1 hti) hl1, hlt1⟩
  · intro hltn
    have htf : t ≠ f := by
      rintro rfl
      rw [hl] at hltn
      cases hltn
    have hltn1 : alookup ({ idx with
        doc_counter := idx.doc_counter + 1,
        documents := idx.documents ++ [(idx.doc_counter, r)] }
          : Index).fields t = none := hltn
    by_cases hfi : fld.index = true
    · have hlt2 : alookup (updateField
          { idx with doc_counter := idx.doc_counter + 1,
                     documents := idx.documents ++ [(idx.doc_counter, r)] }
          f (Field.add fld v idx.doc_counter)).fields t = none := by
        unfold updateField
        show alookup (aupdate idx.fields f (Field.add fld v idx.doc_counter))
          t = none
        rw [alookup_aupdate_other _ _ _ _ htf]
        exact hltn
      have hsf := stepField_err_copy hl1
        (by rw [hdg]; exact stepIndexPart_of_true v idx.doc_counter hfi)
        (by rw [hdg]; exact stepCopyPart_missing hct htne hlt2)
      unfold indexAdd
      rw [hnames, processFields_single, hsf]
      rfl
    · have hfi' : fld.index = false := Bool.eq_false_iff.2 hfi
      have hsf := stepField_err_copy hl1
        (by
          rw [hdg]
          exact @stepIndexPart_of_false _ f fld (some v) idx.doc_counter hfi')
        (by rw [hdg]; exact stepCopyPart_missing hct htne hltn1)
      unfold indexAdd
      rw [hnames, processFields_single, hsf]
      rfl

/-- Witness for C4 (amended): with `b` declared but unindexed the add
completes and `b` keeps its empty posting map; with `b` undeclared the
add raises. -/
theorem c4_copy_to_alias_behavior_witness :
    (∃ idx' h', indexAdd c4bIndex [c4Doc] 0 = .ok (idx', h') ∧
       alookup idx'.fields "b" =
         some ⟨"b", false, true, none, qlit 1 10 (by norm_num) (by norm_num),
           .words true, []⟩) ∧
    isErr (indexAdd c4Index [c4Doc] 0) = true :=
  ⟨(c4_copy_to_alias_behavior c4bIndex [c4Doc] 0 "a" "b"
      ⟨"a", true, true, some "b", qlit 1 10 (by norm_num) (by norm_num),
        .words true, []⟩
      (.str ['x']) none none (by decide) (by decide) (by decide) (by decide)
      (by decide)).1
    ⟨"b", false, true, none, qlit 1 10 (by norm_num) (by norm_num),
      .words true, []⟩ (by decide) (by decide),
   (c4_copy_to_alias_behavior c4Index [c4Doc] 0 "a" "b"
      ⟨"a", true, true, some "b", qlit 1 10 (by norm_num) (by norm_num),
        .words true, []⟩
      (.str ['x']) none none (by decide) (by decide) (by decide) (by decide)
      (by decide)).2 (by decide)⟩

/-! ## Claim C10 -/

theorem populateGo_score_zero (idx : Index) :
    ∀ (l : List (ℚ × Nat)) (h : Heap) (acc docs : List Nat) (h' : Heap) (r : Nat),
      r < h.length →
      (∀ p ∈ l, p.1 = 0) →
      populateGo idx h acc l = .ok (docs, h') →
      ((hGet h r).score = some 0 ∨ ∃ p ∈ l, alookup idx.documents p.2 = some r) →
      (hGet h' r).score = some 0 := by
  intro l
  induction l with
  | nil =>
    intro h acc docs h' r _ _ hp hdisj
    unfold populateGo at hp
    injection hp with hp
    injection hp with h1 h2
    subst h2
    rcases hdisj with h0 | ⟨p, hpm, _⟩
    · exact h0
    · cases hpm
  | cons p rest ih =>
    intro h acc docs h' r hr hz hp hdisj
    obtain ⟨s, did⟩ := p
    unfold populateGo at hp
    rcases hr0 : alookup idx.documents did with _ | r0 <;> rw [hr0] at hp <;>
      simp only [] at hp
    · exact absurd hp (by simp)
    · have hs0 : s = 0 := hz (s, did) (List.mem_cons_self _ _)
      subst hs0
      apply ih _ _ _ _ r (by rw [hSet_length]; exact hr)
        (fun q hq => hz q (List.mem_cons_of_mem _ hq)) hp
      by_cases hrr : r = r0
      · subst hrr
        left
        rw [hGet_hSet_same _ hr]
      · rcases hdisj with h0 | ⟨q, hqm, hqr⟩
        · left
          rw [hGet_hSet_other _ hrr]
          exact h0
        · rcases List.mem_cons.1 hqm with rfl | hq'
          · rw [hr0] at hqr
            injection hqr with hqr
            exact absurd hqr.symm hrr
          · exact Or.inr ⟨q, hq', hqr⟩

/-- **C10** (confirmed).  `Index.add` mutates the caller's `Document`
object in place — it stamps the new id onto the shared object and
overwrites every not-stored field's value with `None` — and the
index's document store maps the new id to that same reference, so a
later index-side mutation (`populate` attaching a score during a
search whose query parses to no clauses) is visible through the
caller's reference. -/
theorem c10_add_mutates_in_place :
    ∀ (idx : Index) (h : Heap) (r : Nat) (d : Doc) (idx' : Index) (h' : Heap),
      r < h.length → hGet h r = d →
      (d.fields.map Prod.fst).Nodup →
      (∀ k ∈ idx.documents.map Prod.fst, k < idx.doc_counter) →
      indexAdd idx h r = .ok (idx', h') →
      (hGet h' r).id = some idx.doc_counter ∧
      (∀ f fld, f ∈ d.fields.map Prod.fst →
         alookup idx.fields f = some fld → fld.store = false →
         alookup (hGet h' r).fields f = some none) ∧
      idx'.documents = idx.documents ++ [(idx.doc_counter, r)] ∧
      alookup idx'.documents idx.doc_counter = some r ∧
      (∀ q : Chars, parseQuery q = [] →
         ∃ out : SearchOut, searchX idx' h' q = .ok out ∧
           (hGet out.heap r).score = some 0) := by
  intro idx h r d idx' h' hr hd hnd hmono hadd
  unfold indexAdd at hadd
  have hr1 : r < (hSet h r { hGet h r with id := some idx.doc_counter }).length := by
    rw [hSet_length]; exact hr
  have hg1 : hGet (hSet h r { hGet h r with id := some idx.doc_counter }) r =
      { d with id := some idx.doc_counter } := by
    rw [hGet_hSet_same _ hr, hd]
  rw [hg1] at hadd
  obtain ⟨hev, hlen, hid, hpres, hdocs, hctr⟩ := processFields_effects _ _ _ hr1 hadd
  have hdocs' : idx'.documents = idx.documents ++ [(idx.doc_counter, r)] := hdocs
  have hnot : idx.doc_counter ∉ idx.documents.map Prod.fst := fun hmem =>
    absurd (hmono _ hmem) (lt_irrefl _)
  have hlkc : alookup idx'.documents idx.doc_counter = some r := by
    rw [hdocs', alookup_append_of_not_mem _ hnot]
    simp [alookup]
  refine ⟨?_, ?_, hdocs', hlkc, ?_⟩
  · rw [hid, hg1]
  · intro f fld hf hl hst
    exact processFields_wipes _ _ _ hr1 hnd hadd f fld hf hl hst
  · intro q hq
    have hall0 : ∀ p ∈ pySortDesc (idx'.documents.map (fun kv => ((0 : ℚ), kv.1))),
        p.1 = 0 ∧ p.2 ∈ idx'.documents.map Prod.fst := by
      intro p hp
      have hp' : p ∈ idx'.documents.map (fun kv => ((0 : ℚ), kv.1)) :=
        ((List.reverse_perm _).trans (List.perm_insertionSort scoreLE _)).mem_iff.mp hp
      obtain ⟨kv, hkv, hkveq⟩ := List.mem_map.1 hp'
      exact ⟨by rw [← hkveq], by rw [← hkveq]; exact List.mem_map.2 ⟨kv, hkv, rfl⟩⟩
    have hlk : ∀ p ∈ pySortDesc (idx'.documents.map (fun kv => ((0 : ℚ), kv.1))),
        (alookup idx'.documents p.2).isSome = true := fun p hp =>
      (alookup_isSome_iff _ _).2 (hall0 p hp).2
    obtain ⟨⟨docs, h2⟩, hpg⟩ := populateGo_ok idx' _ h' [] hlk
    refine ⟨⟨pySortDesc (idx'.documents.map (fun kv => ((0 : ℚ), kv.1))), docs, h2⟩,
      ?_, ?_⟩
    · unfold searchX
      rw [hq]
      simp only [runParts]
      unfold populate
      rw [hpg]
    · have hmemc : ((0 : ℚ), idx.doc_counter) ∈
          pySortDesc (idx'.documents.map (fun kv => ((0 : ℚ), kv.1))) := by
        refine ((List.reverse_perm _).trans
          (List.perm_insertionSort scoreLE _)).mem_iff.mpr ?_
        refine List.mem_map.2 ⟨(idx.doc_counter, r), ?_, rfl⟩
        rw [hdocs']
        exact List.mem_append.2 (Or.inr (by simp))
      have hrlen : r < h'.length := by
        rw [hlen, hSet_length]
        exact hr
      exact populateGo_score_zero idx' _ h' [] docs h2 r hrlen
        (fun p hp => (hall0 p hp).1) hpg
        (Or.inr ⟨((0 : ℚ), idx.doc_counter), hmemc, hlkc⟩)

/-- Witness for C10 at a one-field not-stored schema: the caller's
object (heap slot 0) carries the assigned id, the store maps id 0 back
to that slot, and after an empty-query search the attached score 0 is
visible through the caller's reference. -/
theorem c10_add_mutates_in_place_witness :
    (hGet c5bResult.2 0).id = some c5bIndex.doc_counter ∧
    alookup c5bResult.1.documents c5bIndex.doc_counter = some 0 ∧
    ∃ out : SearchOut, searchX c5bResult.1 c5bResult.2 [] = .ok out ∧
      (hGet out.heap 0).score = some 0 :=
  ⟨(c10_add_mutates_in_place c5bIndex [c5bDoc] 0 c5bDoc c5bResult.1 c5bResult.2
      (by decide) (by decide) (by decide) (by decide) (by decide)).1,
   (c10_add_mutates_in_place c5bIndex [c5bDoc] 0 c5bDoc c5bResult.1 c5bResult.2
      (by decide) (by decide) (by decide) (by decide) (by decide)).2.2.2.1,
   (c10_add_mutates_in_place c5bIndex [c5bDoc] 0 c5bDoc c5bResult.1 c5bResult.2
      (by decide) (by decide) (by decide) (by decide) (by decide)).2.2.2.2 []
      (by decide)⟩

end Trwbl
